import Mathlib

set_option maxRecDepth 8000

/-!
Verification of the Sudoku solver (`a5.py`).

The board model, its operations and the two search drivers are embedded
shallowly: the 9x9 grid `self.rows` becomes a `List (List Cell)`, in-place
mutation becomes functional update, and `copy.deepcopy` in the drivers is
the identity on values.  A separate heap model (`HBoard`/`Store`) is used
for the deep-copy (frame) property, where aliasing is observable.
-/

/-- A cell of `Board.rows`: in the source it is either an `int` (an assigned
digit) or a `list` of remaining candidate digits. -/
inductive Cell where
  | assigned (d : Nat)
  | candidates (l : List Nat)
deriving DecidableEq, Repr

/-- `remove_if_exists(lst, elem)`: if the cell holds a list, remove the first
occurrence of `elem` when present (Python `list.remove`); an `int` cell is
left untouched (the `isinstance(lst, list)` guard). -/
def remove_if_exists (cell : Cell) (elem : Nat) : Cell :=
  match cell with
  | .assigned d => .assigned d
  | .candidates l => .candidates (l.erase elem)

/-- `Board`: the 9x9 grid plus the count of placed numbers. -/
structure Board where
  rows : List (List Cell)
  num_nums_placed : Nat
deriving DecidableEq, Repr

/-- `self.size`, set to 9 in `Board.__init__` and never modified. -/
def boardSize : Nat := 9

/-- `list(range(1, 10))`: the digits 1..9. -/
def digits : List Nat := List.range' 1 9

/-- `Board.__init__`: every cell starts as the full candidate list 1..9 and
`num_nums_placed` starts at 0. -/
def Board.init : Board :=
  { rows := (List.range boardSize).map fun _ =>
      (List.range boardSize).map fun _ => Cell.candidates digits
    num_nums_placed := 0 }

/-- Read `rows[r][c]`; out-of-range reads return a dummy (all source reads are
in range on a 9x9 board). -/
def cellAt (rows : List (List Cell)) (r c : Nat) : Cell :=
  (rows.getD r []).getD c (Cell.assigned 0)

/-- Write `rows[r][c] = v`; out-of-range writes are dropped. -/
def setCell (rows : List (List Cell)) (r c : Nat) (v : Cell) : List (List Cell) :=
  rows.set r ((rows.getD r []).set c v)

/-- `subgrid_coordinates(row, col)`: the 9 coordinates of the 3x3 block
containing (row, col), outer loop on the row offset. -/
def subgrid_coordinates (row col : Nat) : List (Nat × Nat) :=
  (List.range 3).flatMap fun dr =>
    (List.range 3).map fun dc => ((row / 3) * 3 + dr, (col / 3) * 3 + dc)

/-- The scan order of the nested `for r ... for c ...` loops. -/
def rowMajorCoords : List (Nat × Nat) :=
  (List.range boardSize).flatMap fun r =>
    (List.range boardSize).map fun c => (r, c)

/-- One iteration of the `find_most_constrained_cell` loop body: the state is
`(best_len, best_r, best_c)`, updated only on a strictly shorter list. -/
def fmccStep (rows : List (List Cell)) (st : Nat × Nat × Nat) (rc : Nat × Nat) :
    Nat × Nat × Nat :=
  match cellAt rows rc.1 rc.2 with
  | .candidates l => if l.length < st.1 then (l.length, rc.1, rc.2) else st
  | .assigned _ => st

/-- `find_most_constrained_cell()`: scan all cells row-major, starting from
`best_len = 10`, `best_r = best_c = 0`. -/
def Board.find_most_constrained_cell (b : Board) : Nat × Nat :=
  let st := rowMajorCoords.foldl (fmccStep b.rows) (10, 0, 0)
  (st.2.1, st.2.2)

/-- `failure_test()`: some cell compares equal to the empty list (an `int`
cell never does). -/
def Board.failure_test (b : Board) : Bool :=
  b.rows.any fun row => row.any fun cell => cell == Cell.candidates []

/-- `goal_test()`: the counter reached `size * size`. -/
def Board.goal_test (b : Board) : Bool :=
  b.num_nums_placed == boardSize * boardSize

/-- One elimination step `remove_if_exists(self.rows[r][c], a)` as a
functional update of the grid. -/
def elimAt (rows : List (List Cell)) (r c a : Nat) : List (List Cell) :=
  setCell rows r c (remove_if_exists (cellAt rows r c) a)

/-- A sequence of elimination steps, one per coordinate. -/
def elimList (rows : List (List Cell)) (coords : List (Nat × Nat)) (a : Nat) :
    List (List Cell) :=
  coords.foldl (fun rs p => elimAt rs p.1 p.2 a) rows

/-- The coordinates visited by the column-elimination loop of `update`. -/
def colCoords (column : Nat) : List (Nat × Nat) :=
  (List.range boardSize).map fun r => (r, column)

/-- The coordinates visited by the row-elimination loop of `update`. -/
def rowCoords (row : Nat) : List (Nat × Nat) :=
  (List.range boardSize).map fun c => (row, c)

/-- `update(row, column, assignment)`: set the cell to the assigned digit,
increment the counter, then eliminate the digit from the column, the row and
the subgrid (in that order, exactly the three source loops). -/
def Board.update (b : Board) (row column assignment : Nat) : Board :=
  let rows1 := setCell b.rows row column (Cell.assigned assignment)
  let rows2 := elimList rows1 (colCoords column) assignment
  let rows3 := elimList rows2 (rowCoords row) assignment
  let rows4 := elimList rows3 (subgrid_coordinates row column) assignment
  { rows := rows4, num_nums_placed := b.num_nums_placed + 1 }

/-- Seeding loop `for mv in moves: b.update(*mv)`. -/
def Board.applyMoves (b : Board) (moves : List (Nat × Nat × Nat)) : Board :=
  moves.foldl (fun bd m => bd.update m.1 m.2.1 m.2.2) b

/-- Outcome of a driver run: a returned board, the `return None` at loop exit,
a Python `TypeError` from iterating an `int` cell (`for v in choices` when the
most-constrained cell is assigned), or exhaustion of the termination fuel
(an artifact of the embedding, never reached with sufficient fuel). -/
inductive SearchOut where
  | found (b : Board)
  | exhausted
  | fault
  | outOfFuel
deriving DecidableEq, Repr

/-- `DFS`, fuel-indexed.  Modelled from the spec: the `Stack` frontier from
the missing `stack_and_queue` module is LIFO ("stack: most-recently-pushed"
is removed first); the list head is the top of the stack, so pushing the
children for `v in choices` in order leaves them reversed on top.
`copy.deepcopy(candidate)` is the identity on values here. -/
def DFSAux : Nat → List Board → SearchOut
  | 0, _ => .outOfFuel
  | _ + 1, [] => .exhausted
  | fuel + 1, candidate :: rest =>
    if candidate.goal_test then .found candidate
    else if candidate.failure_test then DFSAux fuel rest
    else
      let rc := candidate.find_most_constrained_cell
      match cellAt candidate.rows rc.1 rc.2 with
      | .candidates choices =>
          DFSAux fuel
            ((choices.map fun v => candidate.update rc.1 rc.2 v).reverse ++ rest)
      | .assigned _ => .fault

/-- `BFS`, fuel-indexed.  Modelled from the spec: the `Queue` frontier is FIFO
("queue: earliest-pushed" is removed first); the list head is the queue front
and children are appended at the back in `choices` order. -/
def BFSAux : Nat → List Board → SearchOut
  | 0, _ => .outOfFuel
  | _ + 1, [] => .exhausted
  | fuel + 1, candidate :: rest =>
    if candidate.goal_test then .found candidate
    else if candidate.failure_test then BFSAux fuel rest
    else
      let rc := candidate.find_most_constrained_cell
      match cellAt candidate.rows rc.1 rc.2 with
      | .candidates choices =>
          BFSAux fuel (rest ++ choices.map fun v => candidate.update rc.1 rc.2 v)
      | .assigned _ => .fault

/-- `DFS(state)`: the frontier is initialized with the seed board. -/
def DFS (fuel : Nat) (state : Board) : SearchOut :=
  DFSAux fuel [state]

/-- `BFS(state)`: the frontier is initialized with the seed board. -/
def BFS (fuel : Nat) (state : Board) : SearchOut :=
  BFSAux fuel [state]

/-! ### Specification-side predicates over the embedded model -/

/-- The digit `a` does not occur in the cell (vacuously true for assigned
cells). -/
def Cell.noDigit (a : Nat) (cell : Cell) : Prop :=
  ∀ l, cell = Cell.candidates l → a ∉ l

/-- The data-model invariant on a single cell: a candidate list is a
duplicate-free selection of the digits 1..9 (`Candidates(set of digit)` in
the spec's data model). -/
def Cell.ok (cell : Cell) : Prop :=
  ∀ l, cell = Cell.candidates l → l.Nodup ∧ l ⊆ digits

/-- Every cell of the grid satisfies the data-model invariant. -/
def listsOK (rows : List (List Cell)) : Prop :=
  ∀ i j, Cell.ok (cellAt rows i j)

/-- A candidate list is a sublist (order-preserving selection) of the initial
list `[1..9]`. -/
def Cell.subDigits (cell : Cell) : Prop :=
  ∀ l, cell = Cell.candidates l → l.Sublist digits

/-- Every candidate list of the grid is a sublist of `[1..9]`. -/
def subOK (rows : List (List Cell)) : Prop :=
  ∀ i j, Cell.subDigits (cellAt rows i j)

/-- The grid is a full 9x9 grid. -/
def grid9 (rows : List (List Cell)) : Prop :=
  rows.length = boardSize ∧ ∀ i, i < boardSize → (rows.getD i []).length = boardSize

/-- Cells `(i, j)` and `(r, c)` share a row, a column or a 3x3 subgrid. -/
def sharesUnit (r c i j : Nat) : Prop :=
  i = r ∨ j = c ∨ (i / 3 = r / 3 ∧ j / 3 = c / 3)

/-- Strict row-major (lexicographic) order on coordinates. -/
def rmLt (p q : Nat × Nat) : Prop :=
  p.1 < q.1 ∨ (p.1 = q.1 ∧ p.2 < q.2)

instance : DecidableRel rmLt := fun p q =>
  inferInstanceAs (Decidable (p.1 < q.1 ∨ (p.1 = q.1 ∧ p.2 < q.2)))

/-- Invariant of the `find_most_constrained_cell` scan after processing the
coordinate prefix `pre`: either no candidate cell has been seen and the state
is still the initial `(10, 0, 0)`, or the state records the first candidate
cell of minimal list length seen so far (strict `<` keeps the first). -/
def ScanInv (rows : List (List Cell)) (pre : List (Nat × Nat))
    (st : Nat × Nat × Nat) : Prop :=
  (st.1 = 10 ∧ st.2 = (0, 0) ∧
    ∀ p ∈ pre, ∀ l, cellAt rows p.1 p.2 = Cell.candidates l → False) ∨
  (∃ pre1 pre2 l, pre = pre1 ++ st.2 :: pre2 ∧
    cellAt rows st.2.1 st.2.2 = Cell.candidates l ∧ l.length = st.1 ∧
    (∀ p ∈ pre, ∀ l', cellAt rows p.1 p.2 = Cell.candidates l' → st.1 ≤ l'.length) ∧
    (∀ p ∈ pre1, ∀ l', cellAt rows p.1 p.2 = Cell.candidates l' → st.1 < l'.length))

/-- Weight 1 for an assigned cell. -/
def Cell.assignedWeight : Cell → Nat
  | .assigned _ => 1
  | .candidates _ => 0

/-- Weight 1 for a candidate-list cell. -/
def Cell.candWeight : Cell → Nat
  | .assigned _ => 0
  | .candidates _ => 1

/-- Total weight of a grid under a per-cell weight. -/
def countW (w : Cell → Nat) (rows : List (List Cell)) : Nat :=
  (rows.map fun row => (row.map w).sum).sum

/-- The number of cells of the grid that still hold a candidate list. -/
def candCount (rows : List (List Cell)) : Nat :=
  countW Cell.candWeight rows

/-- The number of cells of the grid that hold an assigned digit. -/
def assignedCount (rows : List (List Cell)) : Nat :=
  countW Cell.assignedWeight rows

/-- Termination measure for a search frontier: replacing a board by at most
nine children with one candidate cell fewer strictly decreases it. -/
def frontierMeasure (frontier : List Board) : Nat :=
  (frontier.map fun b => 10 ^ (candCount b.rows + 1)).sum

/-- The DFS loop runs its frontier dry: every popped board fails `goal_test`,
failed boards are pruned, branched boards put their children on the stack,
and the stack eventually empties (the `return None` path). -/
inductive DFSEmpties : List Board → Prop
  | nil : DFSEmpties []
  | prune (b : Board) (rest : List Board) :
      b.goal_test = false → b.failure_test = true →
      DFSEmpties rest → DFSEmpties (b :: rest)
  | branch (b : Board) (rest : List Board) (choices : List Nat) :
      b.goal_test = false → b.failure_test = false →
      cellAt b.rows b.find_most_constrained_cell.1 b.find_most_constrained_cell.2 =
        .candidates choices →
      DFSEmpties
        ((choices.map fun v =>
          b.update b.find_most_constrained_cell.1 b.find_most_constrained_cell.2 v).reverse
          ++ rest) →
      DFSEmpties (b :: rest)

/-- The BFS loop runs its frontier dry (the `return None` path). -/
inductive BFSEmpties : List Board → Prop
  | nil : BFSEmpties []
  | prune (b : Board) (rest : List Board) :
      b.goal_test = false → b.failure_test = true →
      BFSEmpties rest → BFSEmpties (b :: rest)
  | branch (b : Board) (rest : List Board) (choices : List Nat) :
      b.goal_test = false → b.failure_test = false →
      cellAt b.rows b.find_most_constrained_cell.1 b.find_most_constrained_cell.2 =
        .candidates choices →
      BFSEmpties
        (rest ++ choices.map fun v =>
          b.update b.find_most_constrained_cell.1 b.find_most_constrained_cell.2 v) →
      BFSEmpties (b :: rest)

/-! ### Heap model for the deep-copy claim

`copy.deepcopy` is only observable when aliasing is: here a candidate list
lives in a `Store` and a cell holds either an inline assigned digit or a
reference (a store index) to its candidate list.  `copy.deepcopy` allocates
fresh store entries; a shallow copy would instead share the indices. -/

/-- A heap cell: an assigned digit, or a reference to a candidate list in
the store. -/
inductive HCell where
  | assigned (d : Nat)
  | ref (id : Nat)
deriving DecidableEq, Repr

/-- The store of candidate lists, indexed by reference. -/
abbrev Store := List (List Nat)

/-- A board whose candidate lists live in a store. -/
structure HBoard where
  rows : List (List HCell)
  num_nums_placed : Nat
deriving DecidableEq, Repr

/-- Dereference a heap cell into a value cell. -/
def readHCell (σ : Store) (h : HCell) : Cell :=
  match h with
  | .assigned d => .assigned d
  | .ref id => .candidates (σ.getD id [])

/-- Read the value of cell `(r, c)` of a heap board. -/
def readCell (σ : Store) (b : HBoard) (r c : Nat) : Cell :=
  readHCell σ ((b.rows.getD r []).getD c (.assigned 0))

/-- Deep-copy one cell: a reference is re-allocated at the end of the store
with the same contents (`copy.deepcopy` copies every list). -/
def copyHCell (σ : Store) (h : HCell) : Store × HCell :=
  match h with
  | .assigned d => (σ, .assigned d)
  | .ref id => (σ ++ [σ.getD id []], .ref σ.length)

/-- Deep-copy a row of cells, threading the store. -/
def copyHRow (σ : Store) : List HCell → Store × List HCell
  | [] => (σ, [])
  | h :: t =>
    let p1 := copyHCell σ h
    let p2 := copyHRow p1.1 t
    (p2.1, p1.2 :: p2.2)

/-- Deep-copy a grid of cells, threading the store. -/
def copyHRows (σ : Store) : List (List HCell) → Store × List (List HCell)
  | [] => (σ, [])
  | row :: t =>
    let p1 := copyHRow σ row
    let p2 := copyHRows p1.1 t
    (p2.1, p1.2 :: p2.2)

/-- `copy.deepcopy(board)`: every candidate list is copied into fresh store
entries; the original's references are untouched. -/
def hDeepcopy (σ : Store) (b : HBoard) : Store × HBoard :=
  let (σ', rows') := copyHRows σ b.rows
  (σ', { rows := rows', num_nums_placed := b.num_nums_placed })

/-- Write `rows[r][c] = v` on a heap grid. -/
def setHCell (rows : List (List HCell)) (r c : Nat) (v : HCell) :
    List (List HCell) :=
  rows.set r ((rows.getD r []).set c v)

/-- One elimination step on the heap: `remove_if_exists(self.rows[r][c], a)`
mutates the referenced list in the store; assigned cells are untouched. -/
def hElim (rows : List (List HCell)) (σ : Store) (r c a : Nat) : Store :=
  match (rows.getD r []).getD c (.assigned 0) with
  | .assigned _ => σ
  | .ref id => σ.set id ((σ.getD id []).erase a)

/-- `update` on the heap model: rebind the cell to the assigned digit, then
eliminate the digit along the column, the row and the subgrid by mutating
the store. -/
def hUpdate (σ : Store) (b : HBoard) (row column assignment : Nat) :
    Store × HBoard :=
  let rows1 := setHCell b.rows row column (.assigned assignment)
  let σ' := (colCoords column ++ rowCoords row ++ subgrid_coordinates row column).foldl
    (fun σ0 p => hElim rows1 σ0 p.1 p.2 assignment) σ
  (σ', { rows := rows1, num_nums_placed := b.num_nums_placed + 1 })

/-- All references of a heap grid point below `n` (they are valid for a store
of length `n`). -/
def refsBelow (n : Nat) (rows : List (List HCell)) : Prop :=
  ∀ row ∈ rows, ∀ h ∈ row, ∀ id, h = HCell.ref id → id < n

/-- All references of a heap grid point at or above `n` (they are fresh with
respect to the first `n` store entries). -/
def refsAtLeast (n : Nat) (rows : List (List HCell)) : Prop :=
  ∀ row ∈ rows, ∀ h ∈ row, ∀ id, h = HCell.ref id → n ≤ id

/-- Executable check that all references of a heap grid point below `n`. -/
def refsBelowB (n : Nat) (rows : List (List HCell)) : Bool :=
  rows.all fun row => row.all fun h =>
    match h with
    | .assigned _ => true
    | .ref id => id < n

/-! ### Solutions and search invariants (specification side) -/

/-- A full valid Sudoku solution on the 9x9 grid: every value is a digit
1..9 and no two distinct cells sharing a row, column or subgrid hold the
same value. -/
def validSolution (s : Nat → Nat → Nat) : Prop :=
  (∀ r, r < 9 → ∀ c, c < 9 → s r c ∈ digits) ∧
  (∀ r, r < 9 → ∀ c, c < 9 → ∀ i, i < 9 → ∀ j, j < 9 → sharesUnit r c i j →
    ¬(i = r ∧ j = c) → s i j ≠ s r c)

/-- The board is compatible with the solution `s`: every assigned cell agrees
with `s` and every candidate list still contains the `s` value. -/
def compat (s : Nat → Nat → Nat) (b : Board) : Prop :=
  ∀ i j, i < 9 → j < 9 →
    (∀ d, cellAt b.rows i j = Cell.assigned d → d = s i j) ∧
    (∀ l, cellAt b.rows i j = Cell.candidates l → s i j ∈ l)

/-- The counter field equals the number of assigned cells of the grid. -/
def counterOK (b : Board) : Prop :=
  b.num_nums_placed = assignedCount b.rows

/-- No assigned digit is repeated among sharing cells, and every candidate
list excludes the digits already assigned to its sharing peers. -/
def consistent (b : Board) : Prop :=
  ∀ i j r c, i < 9 → j < 9 → r < 9 → c < 9 → sharesUnit r c i j →
    ¬(i = r ∧ j = c) →
    ∀ d, cellAt b.rows r c = Cell.assigned d →
      (∀ e, cellAt b.rows i j = Cell.assigned e → e ≠ d) ∧
      (∀ l, cellAt b.rows i j = Cell.candidates l → d ∉ l)

/-- Every assigned digit lies in 1..9. -/
def assignedDigits (b : Board) : Prop :=
  ∀ i j d, i < 9 → j < 9 → cellAt b.rows i j = Cell.assigned d → d ∈ digits

/-- All cells assigned in `b0` carry the same assignment in `b`. -/
def extendsB (b0 b : Board) : Prop :=
  ∀ i j d, cellAt b0.rows i j = Cell.assigned d → cellAt b.rows i j = Cell.assigned d

/-- Invariant of every board reachable by the search drivers from a
well-formed seed `b0`. -/
structure Reach (b0 b : Board) : Prop where
  wf : grid9 b.rows
  ok : listsOK b.rows
  counter : counterOK b
  cons : consistent b
  digs : assignedDigits b
  ext : extendsB b0 b

/-- The digit a fully assigned board places at a cell (0 on a candidate
cell). -/
def boardValue (b : Board) (i j : Nat) : Nat :=
  match cellAt b.rows i j with
  | .assigned d => d
  | .candidates _ => 0

/-- A concrete valid solution of the empty puzzle (the standard shifted
pattern), used to witness the solvable-puzzle theorem. -/
def solvedPattern (i j : Nat) : Nat :=
  (3 * (i % 3) + i / 3 + j) % 9 + 1

example : (Board.init.update 0 0 5).num_nums_placed = 1 := by decide
example : cellAt (Board.init.update 0 0 5).rows 0 1 =
    Cell.candidates [1, 2, 3, 4, 6, 7, 8, 9] := by decide
example : cellAt (Board.init.update 0 0 5).rows 8 8 = Cell.candidates digits := by
  decide
example : Board.init.find_most_constrained_cell = (0, 0) := by decide
example : (Board.init.update 0 0 5).find_most_constrained_cell = (0, 1) := by decide
example : Board.init.failure_test = false := by decide
example : Board.init.goal_test = false := by decide

/-! ### Grid access lemmas -/

theorem getD_set {α : Type _} (l : List α) (i j : Nat) (v d : α) :
    (l.set i v).getD j d = if i = j ∧ j < l.length then v else l.getD j d := by
  rcases eq_or_ne i j with rfl | h
  · by_cases hj : i < l.length
    · simp [List.getD_eq_getElem?_getD, List.getElem?_set, hj]
    · simp [List.getD_eq_getElem?_getD, List.getElem?_set, hj,
        List.getElem?_eq_none (Nat.le_of_not_lt hj)]
  · simp [List.getD_eq_getElem?_getD, List.getElem?_set, h]

theorem cellAt_setCell (rows : List (List Cell)) (r c i j : Nat) (v : Cell) :
    cellAt (setCell rows r c v) i j =
      if r = i ∧ c = j ∧ i < rows.length ∧ j < (rows.getD i []).length then v
      else cellAt rows i j := by
  unfold cellAt setCell
  rw [getD_set]
  by_cases h1 : r = i ∧ i < rows.length
  · obtain ⟨rfl, hlt⟩ := h1
    rw [if_pos ⟨rfl, hlt⟩, getD_set]
    by_cases h2 : c = j ∧ j < (rows.getD r []).length
    · obtain ⟨rfl, hlt2⟩ := h2
      rw [if_pos ⟨rfl, hlt2⟩, if_pos ⟨rfl, rfl, hlt, hlt2⟩]
    · rw [if_neg h2, if_neg]
      intro hcon
      exact h2 ⟨hcon.2.1, hcon.2.2.2⟩
  · rw [if_neg, if_neg]
    · intro hcon
      exact h1 ⟨hcon.1, hcon.2.2.1⟩
    · intro hcon
      exact h1 ⟨hcon.1, hcon.2⟩

theorem cellAt_setCell_ne (rows : List (List Cell)) (r c i j : Nat) (v : Cell)
    (h : ¬(r = i ∧ c = j)) :
    cellAt (setCell rows r c v) i j = cellAt rows i j := by
  rw [cellAt_setCell, if_neg]
  intro hcon
  exact h ⟨hcon.1, hcon.2.1⟩

theorem cellAt_setCell_self (rows : List (List Cell)) (i j : Nat) (v : Cell)
    (hi : i < rows.length) (hj : j < (rows.getD i []).length) :
    cellAt (setCell rows i j v) i j = v := by
  rw [cellAt_setCell, if_pos ⟨rfl, rfl, hi, hj⟩]

theorem cellAt_setCell_cases (rows : List (List Cell)) (r c i j : Nat) (v : Cell) :
    cellAt (setCell rows r c v) i j = v ∨
      cellAt (setCell rows r c v) i j = cellAt rows i j := by
  rw [cellAt_setCell]
  split
  · exact Or.inl rfl
  · exact Or.inr rfl

theorem length_setCell (rows : List (List Cell)) (r c : Nat) (v : Cell) :
    (setCell rows r c v).length = rows.length := by
  simp [setCell]

theorem rowLen_setCell (rows : List (List Cell)) (r c : Nat) (v : Cell) (i : Nat) :
    ((setCell rows r c v).getD i []).length = (rows.getD i []).length := by
  unfold setCell
  rw [getD_set]
  split
  · next h =>
    rw [← h.1]
    simp
  · rfl

theorem cellAt_elimAt_ne (rows : List (List Cell)) (r c a i j : Nat)
    (h : ¬(r = i ∧ c = j)) :
    cellAt (elimAt rows r c a) i j = cellAt rows i j :=
  cellAt_setCell_ne _ _ _ _ _ _ h

theorem cellAt_elimAt_self (rows : List (List Cell)) (i j a : Nat)
    (hi : i < rows.length) (hj : j < (rows.getD i []).length) :
    cellAt (elimAt rows i j a) i j = remove_if_exists (cellAt rows i j) a :=
  cellAt_setCell_self _ _ _ _ hi hj

theorem cellAt_elimAt_cases (rows : List (List Cell)) (r c a i j : Nat) :
    cellAt (elimAt rows r c a) i j = cellAt rows i j ∨
      cellAt (elimAt rows r c a) i j = remove_if_exists (cellAt rows i j) a := by
  unfold elimAt
  rw [cellAt_setCell]
  split
  · next h =>
    rw [h.1, h.2.1]
    exact Or.inr rfl
  · exact Or.inl rfl

theorem length_elimAt (rows : List (List Cell)) (r c a : Nat) :
    (elimAt rows r c a).length = rows.length :=
  length_setCell _ _ _ _

theorem rowLen_elimAt (rows : List (List Cell)) (r c a i : Nat) :
    ((elimAt rows r c a).getD i []).length = (rows.getD i []).length :=
  rowLen_setCell _ _ _ _ _

theorem length_elimList (rows : List (List Cell)) (coords : List (Nat × Nat)) (a : Nat) :
    (elimList rows coords a).length = rows.length := by
  induction coords generalizing rows with
  | nil => rfl
  | cons p t ih => rw [elimList, List.foldl_cons, ← elimList, ih, length_elimAt]

theorem rowLen_elimList (rows : List (List Cell)) (coords : List (Nat × Nat))
    (a i : Nat) :
    ((elimList rows coords a).getD i []).length = (rows.getD i []).length := by
  induction coords generalizing rows with
  | nil => rfl
  | cons p t ih => rw [elimList, List.foldl_cons, ← elimList, ih, rowLen_elimAt]

theorem cellAt_elimList_not_mem (rows : List (List Cell)) (coords : List (Nat × Nat))
    (a i j : Nat) (h : ∀ p ∈ coords, ¬(p.1 = i ∧ p.2 = j)) :
    cellAt (elimList rows coords a) i j = cellAt rows i j := by
  induction coords generalizing rows with
  | nil => rfl
  | cons p t ih =>
    rw [elimList, List.foldl_cons, ← elimList, ih _ fun q hq => h q (List.mem_cons_of_mem _ hq),
      cellAt_elimAt_ne _ _ _ _ _ _ (h p (List.mem_cons_self _ _))]

/-! ### Preservation of cell invariants -/

theorem ok_assigned (d : Nat) : Cell.ok (Cell.assigned d) :=
  fun _ h => nomatch h

theorem noDigit_remove_if_exists (a : Nat) (cell : Cell)
    (h : Cell.noDigit a cell) : Cell.noDigit a (remove_if_exists cell a) := by
  cases cell with
  | assigned d => exact fun _ hl => nomatch hl
  | candidates l0 =>
    intro l hl hmem
    cases hl
    exact h l0 rfl (List.erase_subset _ _ hmem)

theorem ok_remove_if_exists (a : Nat) (cell : Cell) (h : Cell.ok cell) :
    Cell.ok (remove_if_exists cell a) := by
  cases cell with
  | assigned d => exact fun _ hl => nomatch hl
  | candidates l0 =>
    intro l hl
    cases hl
    exact ⟨(h l0 rfl).1.erase a, fun x hx => (h l0 rfl).2 (List.erase_subset _ _ hx)⟩

theorem noDigit_remove_if_exists_of_ok (a : Nat) (cell : Cell) (h : Cell.ok cell) :
    Cell.noDigit a (remove_if_exists cell a) := by
  cases cell with
  | assigned d => exact fun _ hl => nomatch hl
  | candidates l0 =>
    intro l hl hmem
    cases hl
    exact ((((h l0 rfl).1.mem_erase_iff).mp hmem).1) rfl

theorem listsOK_setCell (rows : List (List Cell)) (r c : Nat) (v : Cell)
    (hv : Cell.ok v) (h : listsOK rows) : listsOK (setCell rows r c v) := by
  intro i j
  rcases cellAt_setCell_cases rows r c i j v with heq | heq
  · rw [heq]; exact hv
  · rw [heq]; exact h i j

theorem listsOK_elimAt (rows : List (List Cell)) (r c a : Nat)
    (h : listsOK rows) : listsOK (elimAt rows r c a) := by
  intro i j
  rcases cellAt_elimAt_cases rows r c a i j with heq | heq
  · rw [heq]; exact h i j
  · rw [heq]; exact ok_remove_if_exists a _ (h i j)

theorem listsOK_elimList (rows : List (List Cell)) (coords : List (Nat × Nat))
    (a : Nat) (h : listsOK rows) : listsOK (elimList rows coords a) := by
  induction coords generalizing rows with
  | nil => exact h
  | cons p t ih =>
    rw [elimList, List.foldl_cons, ← elimList]
    exact ih _ (listsOK_elimAt _ _ _ _ h)

theorem noDigit_elimList (rows : List (List Cell)) (coords : List (Nat × Nat))
    (a i j : Nat) (h : Cell.noDigit a (cellAt rows i j)) :
    Cell.noDigit a (cellAt (elimList rows coords a) i j) := by
  induction coords generalizing rows with
  | nil => exact h
  | cons p t ih =>
    rw [elimList, List.foldl_cons, ← elimList]
    refine ih _ ?_
    rcases cellAt_elimAt_cases rows p.1 p.2 a i j with heq | heq
    · rw [heq]; exact h
    · rw [heq]; exact noDigit_remove_if_exists a _ h

theorem assigned_elimList (rows : List (List Cell)) (coords : List (Nat × Nat))
    (a i j d : Nat) (h : cellAt rows i j = .assigned d) :
    cellAt (elimList rows coords a) i j = .assigned d := by
  induction coords generalizing rows with
  | nil => exact h
  | cons p t ih =>
    rw [elimList, List.foldl_cons, ← elimList]
    refine ih _ ?_
    rcases cellAt_elimAt_cases rows p.1 p.2 a i j with heq | heq
    · rw [heq]; exact h
    · rw [heq, h]; rfl

theorem noDigit_elimList_of_mem (rows : List (List Cell)) (coords : List (Nat × Nat))
    (a i j : Nat) (hok : listsOK rows) (hmem : (i, j) ∈ coords)
    (hi : i < rows.length) (hj : j < (rows.getD i []).length) :
    Cell.noDigit a (cellAt (elimList rows coords a) i j) := by
  induction coords generalizing rows with
  | nil => cases hmem
  | cons p t ih =>
    rw [elimList, List.foldl_cons, ← elimList]
    rcases List.mem_cons.mp hmem with heq | hmem'
    · subst heq
      refine noDigit_elimList _ _ _ _ _ ?_
      rw [cellAt_elimAt_self rows i j a hi hj]
      exact noDigit_remove_if_exists_of_ok a _ (hok i j)
    · refine ih _ (listsOK_elimAt _ _ _ _ hok) hmem' ?_ ?_
      · rw [length_elimAt]; exact hi
      · rw [rowLen_elimAt]; exact hj

/-! ### Shape and decomposition of `update` -/

theorem grid9_setCell (rows : List (List Cell)) (r c : Nat) (v : Cell)
    (h : grid9 rows) : grid9 (setCell rows r c v) := by
  refine ⟨by rw [length_setCell]; exact h.1, fun i hi => ?_⟩
  rw [rowLen_setCell]
  exact h.2 i hi

theorem grid9_elimList (rows : List (List Cell)) (coords : List (Nat × Nat))
    (a : Nat) (h : grid9 rows) : grid9 (elimList rows coords a) := by
  refine ⟨by rw [length_elimList]; exact h.1, fun i hi => ?_⟩
  rw [rowLen_elimList]
  exact h.2 i hi

/-- The three elimination loops of `update` are one pass over the
concatenated coordinate lists. -/
theorem update_rows_eq (b : Board) (row column assignment : Nat) :
    (b.update row column assignment).rows =
      elimList (setCell b.rows row column (Cell.assigned assignment))
        (colCoords column ++ rowCoords row ++ subgrid_coordinates row column)
        assignment := by
  simp [Board.update, elimList, List.foldl_append]

theorem update_num (b : Board) (row column assignment : Nat) :
    (b.update row column assignment).num_nums_placed = b.num_nums_placed + 1 := rfl

theorem grid9_update (b : Board) (row column assignment : Nat)
    (h : grid9 b.rows) : grid9 (b.update row column assignment).rows := by
  rw [update_rows_eq]
  exact grid9_elimList _ _ _ (grid9_setCell _ _ _ _ h)

theorem listsOK_update (b : Board) (row column assignment : Nat)
    (h : listsOK b.rows) : listsOK (b.update row column assignment).rows := by
  rw [update_rows_eq]
  exact listsOK_elimList _ _ _ (listsOK_setCell _ _ _ _ (ok_assigned assignment) h)

/-! ### Membership in the elimination coordinate lists -/

theorem mem_colCoords (column i j : Nat) :
    (i, j) ∈ colCoords column ↔ j = column ∧ i < boardSize := by
  simp only [colCoords, List.mem_map, List.mem_range, Prod.mk.injEq]
  constructor
  · rintro ⟨r, hr, rfl, rfl⟩
    exact ⟨rfl, hr⟩
  · rintro ⟨rfl, hi⟩
    exact ⟨i, hi, rfl, rfl⟩

theorem mem_rowCoords (row i j : Nat) :
    (i, j) ∈ rowCoords row ↔ i = row ∧ j < boardSize := by
  simp only [rowCoords, List.mem_map, List.mem_range, Prod.mk.injEq]
  constructor
  · rintro ⟨c, hc, rfl, rfl⟩
    exact ⟨rfl, hc⟩
  · rintro ⟨rfl, hj⟩
    exact ⟨j, hj, rfl, rfl⟩

theorem mem_subgrid_coordinates (row col i j : Nat) :
    (i, j) ∈ subgrid_coordinates row col ↔ i / 3 = row / 3 ∧ j / 3 = col / 3 := by
  simp only [subgrid_coordinates, List.mem_flatMap, List.mem_map, List.mem_range,
    Prod.mk.injEq]
  constructor
  · rintro ⟨dr, hdr, dc, hdc, h1, h2⟩
    omega
  · rintro ⟨hij1, hij2⟩
    have h3 : row / 3 * 3 + i % 3 = i := by omega
    have h4 : col / 3 * 3 + j % 3 = j := by omega
    exact ⟨i % 3, by omega, j % 3, by omega, h3, h4⟩

/-! ### The freshly created board -/

theorem grid9_init : grid9 Board.init.rows := by
  constructor
  · decide
  · decide

theorem cellAt_init (i j : Nat) :
    cellAt Board.init.rows i j = Cell.candidates digits ∨
      cellAt Board.init.rows i j = Cell.assigned 0 := by
  by_cases hi : i < 9
  · by_cases hj : j < 9
    · left
      have hdec : ∀ i, i < 9 → ∀ j, j < 9 →
          cellAt Board.init.rows i j = Cell.candidates digits := by decide
      exact hdec i hi j hj
    · right
      have hrow : (Board.init.rows.getD i []).length = 9 := grid9_init.2 i hi
      unfold cellAt
      rw [List.getD_eq_getElem?_getD, List.getElem?_eq_none (by omega)]
      rfl
  · right
    have hlen : Board.init.rows.length = 9 := grid9_init.1
    unfold cellAt
    rw [List.getD_eq_getElem?_getD (Board.init.rows), List.getElem?_eq_none (by omega)]
    rfl

theorem listsOK_init : listsOK Board.init.rows := by
  intro i j l hl
  rcases cellAt_init i j with h | h
  · rw [h] at hl
    cases hl
    exact ⟨by decide, fun x hx => hx⟩
  · rw [h] at hl
    cases hl

/-! ### Claim C1 -/

theorem update_peer_no_digit (b : Board) (r c v : Nat)
    (hg : grid9 b.rows) (hok : listsOK b.rows) (i j : Nat) (hi : i < 9) (hj : j < 9)
    (hshare : sharesUnit r c i j) :
    Cell.noDigit v (cellAt (b.update r c v).rows i j) := by
  rw [update_rows_eq]
  have hmem : (i, j) ∈ colCoords c ++ rowCoords r ++ subgrid_coordinates r c := by
    rcases hshare with h | h | h
    · exact List.mem_append.mpr (Or.inl (List.mem_append.mpr
        (Or.inr ((mem_rowCoords r i j).mpr ⟨h, hj⟩))))
    · exact List.mem_append.mpr (Or.inl (List.mem_append.mpr
        (Or.inl ((mem_colCoords c i j).mpr ⟨h, hi⟩))))
    · exact List.mem_append.mpr (Or.inr ((mem_subgrid_coordinates r c i j).mpr h))
  refine noDigit_elimList_of_mem _ _ v i j
    (listsOK_setCell _ _ _ _ (ok_assigned v) hok) hmem ?_ ?_
  · rw [length_setCell, hg.1]
    exact hi
  · rw [rowLen_setCell, hg.2 i hi]
    exact hj

theorem update_keeps_assigned_peer (b : Board) (r c v : Nat) (i j : Nat)
    (hne : ¬(i = r ∧ j = c)) (d : Nat) (hd : cellAt b.rows i j = Cell.assigned d) :
    cellAt (b.update r c v).rows i j = Cell.assigned d := by
  rw [update_rows_eq]
  refine assigned_elimList _ _ _ _ _ _ ?_
  rw [cellAt_setCell_ne]
  · exact hd
  · intro hcon
    exact hne ⟨hcon.1.symm, hcon.2.symm⟩

/-- C1: for every board of the spec's data model (full 9x9 grid, candidate
lists duplicate-free subsets of 1..9) and every `update(r, c, v)` with
`r, c` in `[0,9)` and `v` in `[1,9]`: immediately after the call, no cell
that is still a candidate list and shares the row `r`, the column `c` or the
3x3 subgrid of `(r, c)` contains `v`, and every already-assigned peer cell is
unchanged by the call. -/
theorem C1_update_eliminates_and_preserves (b : Board) (r c v : Nat)
    (hg : grid9 b.rows) (hok : listsOK b.rows)
    (hr : r < 9) (hc : c < 9) (hv1 : 1 ≤ v) (hv9 : v ≤ 9)
    (i j : Nat) (hi : i < 9) (hj : j < 9) (hne : ¬(i = r ∧ j = c))
    (hshare : sharesUnit r c i j) :
    (∀ l, cellAt (b.update r c v).rows i j = Cell.candidates l → v ∉ l) ∧
    (∀ d, cellAt b.rows i j = Cell.assigned d →
      cellAt (b.update r c v).rows i j = Cell.assigned d) :=
  ⟨update_peer_no_digit b r c v hg hok i j hi hj hshare,
   fun d hd => update_keeps_assigned_peer b r c v i j hne d hd⟩

/-- Witness for C1 at the concrete board `Board()` with `update(0, 0, 5)` and
peer `(0, 1)`: the peer's candidate list no longer contains 5. -/
theorem C1_witness : 5 ∉ ([1, 2, 3, 4, 6, 7, 8, 9] : List Nat) :=
  (C1_update_eliminates_and_preserves Board.init 0 0 5 grid9_init listsOK_init
    (by decide) (by decide) (by decide) (by decide) 0 1 (by decide) (by decide)
    (by decide) (Or.inl rfl)).1 [1, 2, 3, 4, 6, 7, 8, 9] (by decide)

/-! ### Claim C5: the counter counts `update` calls -/

theorem applyMoves_num (moves : List (Nat × Nat × Nat)) (b : Board) :
    (b.applyMoves moves).num_nums_placed = b.num_nums_placed + moves.length := by
  induction moves generalizing b with
  | nil => rfl
  | cons m t ih =>
    rw [Board.applyMoves, List.foldl_cons, ← Board.applyMoves, ih, update_num,
      List.length_cons]
    omega

/-- C5: starting from a freshly created board, after a sequence of `update`
calls with pairwise distinct `(row, col)` coordinates, `num_nums_placed`
equals the number of calls (each call increments it by exactly 1). -/
theorem C5_counter_counts_updates (moves : List (Nat × Nat × Nat))
    (hdist : moves.Pairwise fun m1 m2 => (m1.1, m1.2.1) ≠ (m2.1, m2.2.1)) :
    (Board.init.applyMoves moves).num_nums_placed = moves.length := by
  rw [applyMoves_num]
  simp [Board.init]

/-- Witness for C5: two updates at distinct cells leave the counter at 2. -/
theorem C5_witness :
    (Board.init.applyMoves [(0, 0, 5), (1, 1, 3)]).num_nums_placed = 2 :=
  C5_counter_counts_updates [(0, 0, 5), (1, 1, 3)] (by decide)

/-! ### Claim C6: `failure_test` detects an empty candidate list -/

/-- C6: `failure_test()` returns true exactly when some cell of the grid is
an empty candidate list. -/
theorem C6_failure_test_iff_empty_candidates (b : Board) :
    b.failure_test = true ↔ ∃ row ∈ b.rows, Cell.candidates [] ∈ row := by
  simp [Board.failure_test, List.any_eq_true, beq_iff_eq]

/-! ### Claim C7: `goal_test` is only a counter check -/

/-- C7: `goal_test()` returns true exactly when the counter equals 81; it
performs no structural check, so a board whose counter is 81 while its grid
is the untouched all-candidates grid still tests as solved. -/
theorem C7_goal_test_counter_only :
    (∀ b : Board, b.goal_test = true ↔ b.num_nums_placed = 81) ∧
    Board.goal_test { rows := Board.init.rows, num_nums_placed := 81 } = true := by
  constructor
  · intro b
    simp [Board.goal_test, boardSize]
  · decide

/-! ### Claim C10: candidate lists stay ascending sublists of 1..9 -/

theorem subDigits_remove_if_exists (a : Nat) (cell : Cell)
    (h : Cell.subDigits cell) : Cell.subDigits (remove_if_exists cell a) := by
  cases cell with
  | assigned d => exact fun _ hl => nomatch hl
  | candidates l0 =>
    intro l hl
    cases hl
    exact (List.erase_sublist a l0).trans (h l0 rfl)

theorem subDigits_assigned (d : Nat) : Cell.subDigits (Cell.assigned d) :=
  fun _ h => nomatch h

theorem subOK_setCell (rows : List (List Cell)) (r c : Nat) (v : Cell)
    (hv : Cell.subDigits v) (h : subOK rows) : subOK (setCell rows r c v) := by
  intro i j
  rcases cellAt_setCell_cases rows r c i j v with heq | heq
  · rw [heq]; exact hv
  · rw [heq]; exact h i j

theorem subOK_elimList (rows : List (List Cell)) (coords : List (Nat × Nat))
    (a : Nat) (h : subOK rows) : subOK (elimList rows coords a) := by
  induction coords generalizing rows with
  | nil => exact h
  | cons p t ih =>
    rw [elimList, List.foldl_cons, ← elimList]
    refine ih _ fun i j => ?_
    rcases cellAt_elimAt_cases rows p.1 p.2 a i j with heq | heq
    · rw [heq]; exact h i j
    · rw [heq]; exact subDigits_remove_if_exists a _ (h i j)

theorem subOK_update (b : Board) (row column assignment : Nat)
    (h : subOK b.rows) : subOK (b.update row column assignment).rows := by
  rw [update_rows_eq]
  exact subOK_elimList _ _ _ (subOK_setCell _ _ _ _ (subDigits_assigned assignment) h)

theorem subOK_init : subOK Board.init.rows := by
  intro i j l hl
  rcases cellAt_init i j with h | h
  · rw [h] at hl
    cases hl
    exact List.Sublist.refl digits
  · rw [h] at hl
    cases hl

theorem subOK_applyMoves (moves : List (Nat × Nat × Nat)) (b : Board)
    (h : subOK b.rows) : subOK (b.applyMoves moves).rows := by
  induction moves generalizing b with
  | nil => exact h
  | cons m t ih =>
    rw [Board.applyMoves, List.foldl_cons, ← Board.applyMoves]
    exact ih _ (subOK_update _ _ _ _ h)

/-- C10: starting from a freshly created board, after any sequence of
`update` calls every cell that is still a candidate list is a sublist of
`[1..9]`, duplicate-free and strictly ascending: elimination only removes
elements, preserving order and uniqueness. -/
theorem C10_candidate_lists_ascending (moves : List (Nat × Nat × Nat))
    (i j : Nat) (l : List Nat)
    (hl : cellAt (Board.init.applyMoves moves).rows i j = Cell.candidates l) :
    l.Sublist digits ∧ l.Nodup ∧ l.Pairwise (· < ·) := by
  have hsub : l.Sublist digits :=
    subOK_applyMoves moves Board.init subOK_init i j l hl
  exact ⟨hsub, hsub.nodup (by decide), List.Pairwise.sublist hsub (by decide)⟩

/-- Witness for C10: after `update(0, 0, 5)` the row peer `(0, 1)` holds the
ascending duplicate-free list `[1,2,3,4,6,7,8,9]`. -/
theorem C10_witness :
    ([1, 2, 3, 4, 6, 7, 8, 9] : List Nat).Sublist digits ∧
    ([1, 2, 3, 4, 6, 7, 8, 9] : List Nat).Nodup ∧
    ([1, 2, 3, 4, 6, 7, 8, 9] : List Nat).Pairwise (· < ·) :=
  C10_candidate_lists_ascending [(0, 0, 5)] 0 1 [1, 2, 3, 4, 6, 7, 8, 9] (by decide)

/-! ### Claim C2: the most-constrained-cell scan -/

theorem fmccStep_assigned (rows : List (List Cell)) (st : Nat × Nat × Nat)
    (rc : Nat × Nat) (d : Nat) (h : cellAt rows rc.1 rc.2 = Cell.assigned d) :
    fmccStep rows st rc = st := by
  unfold fmccStep
  rw [h]

theorem fmccStep_candidates (rows : List (List Cell)) (st : Nat × Nat × Nat)
    (rc : Nat × Nat) (l : List Nat) (h : cellAt rows rc.1 rc.2 = Cell.candidates l) :
    fmccStep rows st rc =
      if l.length < st.1 then (l.length, rc.1, rc.2) else st := by
  unfold fmccStep
  rw [h]

theorem fmcc_fold_inv (rows : List (List Cell)) (suf : List (Nat × Nat)) :
    ∀ (pre : List (Nat × Nat)) (st : Nat × Nat × Nat),
    (∀ p ∈ suf, ∀ l, cellAt rows p.1 p.2 = Cell.candidates l → l.length ≤ 9) →
    ScanInv rows pre st →
    ScanInv rows (pre ++ suf) (suf.foldl (fmccStep rows) st) := by
  induction suf with
  | nil =>
    intro pre st _ h
    simpa using h
  | cons q suf ih =>
    intro pre st hlen hinv
    rw [List.foldl_cons]
    have hstep : ScanInv rows (pre ++ [q]) (fmccStep rows st q) := by
      rcases hcell : cellAt rows q.1 q.2 with d | l
      · rw [fmccStep_assigned rows st q d hcell]
        rcases hinv with ⟨h10, h00, hnone⟩ | ⟨pre1, pre2, l0, hsplit, hc, hl0, hmin, hstrict⟩
        · refine Or.inl ⟨h10, h00, fun p hp l hl => ?_⟩
          rcases List.mem_append.mp hp with hp' | hp'
          · exact hnone p hp' l hl
          · rw [List.mem_singleton.mp hp'] at hl
            rw [hcell] at hl
            cases hl
        · refine Or.inr ⟨pre1, pre2 ++ [q], l0, by rw [hsplit]; simp, hc, hl0,
            fun p hp l' hl' => ?_, hstrict⟩
          rcases List.mem_append.mp hp with hp' | hp'
          · exact hmin p hp' l' hl'
          · rw [List.mem_singleton.mp hp'] at hl'
            rw [hcell] at hl'
            cases hl'
      · rw [fmccStep_candidates rows st q l hcell]
        by_cases hlt : l.length < st.1
        · rw [if_pos hlt]
          refine Or.inr ⟨pre, [], l, by rfl, hcell, rfl, fun p hp l' hl' => ?_,
            fun p hp l' hl' => ?_⟩
          · rcases List.mem_append.mp hp with hp' | hp'
            · rcases hinv with ⟨h10, _, hnone⟩ | ⟨_, _, l0, _, _, hl0, hmin, _⟩
              · exact absurd hl' (fun h => hnone p hp' l' h)
              · exact le_of_lt (lt_of_lt_of_le hlt (hmin p hp' l' hl'))
            · rw [List.mem_singleton.mp hp'] at hl'
              rw [hcell] at hl'
              cases hl'
              exact le_refl _
          · rcases hinv with ⟨h10, _, hnone⟩ | ⟨_, _, l0, _, _, hl0, hmin, _⟩
            · exact absurd hl' (fun h => hnone p hp l' h)
            · exact lt_of_lt_of_le hlt (hmin p hp l' hl')
        · rw [if_neg hlt]
          rcases hinv with ⟨h10, h00, hnone⟩ | ⟨pre1, pre2, l0, hsplit, hc, hl0, hmin, hstrict⟩
          · exact absurd (hlen q (List.mem_cons_self _ _) l hcell) (by omega)
          · refine Or.inr ⟨pre1, pre2 ++ [q], l0, by rw [hsplit]; simp, hc, hl0,
              fun p hp l' hl' => ?_, hstrict⟩
            rcases List.mem_append.mp hp with hp' | hp'
            · exact hmin p hp' l' hl'
            · rw [List.mem_singleton.mp hp'] at hl'
              rw [hcell] at hl'
              cases hl'
              omega
    have hrest := ih (pre ++ [q]) (fmccStep rows st q)
      (fun p hp l hl => hlen p (List.mem_cons_of_mem _ hp) l hl) hstep
    rw [List.append_assoc] at hrest
    simpa using hrest

theorem mem_rowMajorCoords (i j : Nat) :
    (i, j) ∈ rowMajorCoords ↔ i < boardSize ∧ j < boardSize := by
  simp only [rowMajorCoords, List.mem_flatMap, List.mem_map, List.mem_range,
    Prod.mk.injEq]
  constructor
  · rintro ⟨r, hr, c, hc, rfl, rfl⟩
    exact ⟨hr, hc⟩
  · rintro ⟨hi, hj⟩
    exact ⟨i, hi, j, hj, rfl, rfl⟩

theorem pairwise_rowMajorCoords : rowMajorCoords.Pairwise rmLt := by decide

theorem mem_of_split {α : Type _} (l l1 l2 : List α) (w : α) (h : l = l1 ++ w :: l2) :
    w ∈ l := by
  rw [h]
  exact List.mem_append.mpr (Or.inr (List.mem_cons_self _ _))

theorem mem_prefix_of_rmLt (w p : Nat × Nat) (pre1 pre2 : List (Nat × Nat))
    (hsplit : rowMajorCoords = pre1 ++ w :: pre2) (hp : p ∈ rowMajorCoords)
    (hlt : rmLt p w) : p ∈ pre1 := by
  have hpw := pairwise_rowMajorCoords
  rw [hsplit] at hpw hp
  rw [List.pairwise_append] at hpw
  rcases List.mem_append.mp hp with h | h
  · exact h
  · rcases List.mem_cons.mp h with rfl | h
    · unfold rmLt at hlt
      omega
    · have h2 := (List.pairwise_cons.mp hpw.2.1).1 p h
      unfold rmLt at hlt h2
      omega

theorem candidate_len_le_nine (l : List Nat) (h1 : l.Nodup) (h2 : l ⊆ digits) :
    l.length ≤ 9 := by
  have h3 := (h1.subperm h2).length_le
  have h4 : digits.length = 9 := by decide
  omega

theorem fmcc_full_spec (b : Board) (hok : listsOK b.rows) :
    ((∃ i j l, i < 9 ∧ j < 9 ∧ cellAt b.rows i j = Cell.candidates l) →
      ∃ l, cellAt b.rows b.find_most_constrained_cell.1
          b.find_most_constrained_cell.2 = Cell.candidates l ∧
        (∀ i j l', i < 9 → j < 9 → cellAt b.rows i j = Cell.candidates l' →
          l.length ≤ l'.length) ∧
        (∀ i j l', i < 9 → j < 9 → rmLt (i, j) b.find_most_constrained_cell →
          cellAt b.rows i j = Cell.candidates l' → l.length < l'.length)) ∧
    ((∀ i j, i < 9 → j < 9 → ∀ l, cellAt b.rows i j ≠ Cell.candidates l) →
      b.find_most_constrained_cell = (0, 0)) := by
  have hlen : ∀ p ∈ rowMajorCoords, ∀ l,
      cellAt b.rows p.1 p.2 = Cell.candidates l → l.length ≤ 9 := by
    intro p _ l hl
    have := hok p.1 p.2 l hl
    exact candidate_len_le_nine l this.1 this.2
  have hinv0 : ScanInv b.rows [] (10, 0, 0) :=
    Or.inl ⟨rfl, rfl, fun p hp => nomatch hp⟩
  have hinv := fmcc_fold_inv b.rows rowMajorCoords [] (10, 0, 0) hlen hinv0
  rw [List.nil_append] at hinv
  constructor
  · rintro ⟨i0, j0, l0, hi0, hj0, hc0⟩
    rcases hinv with ⟨_, _, hnone⟩ | ⟨pre1, pre2, l, hsplit, hc, hl, hmin, hstrict⟩
    · exact absurd hc0 (fun h => hnone (i0, j0)
        ((mem_rowMajorCoords i0 j0).mpr ⟨hi0, hj0⟩) l0 h)
    · refine ⟨l, hc, fun i j l' hi hj hl' => ?_, fun i j l' hi hj hlt hl' => ?_⟩
      · have := hmin (i, j) ((mem_rowMajorCoords i j).mpr ⟨hi, hj⟩) l' hl'
        omega
      · have hp1 : (i, j) ∈ pre1 :=
          mem_prefix_of_rmLt _ (i, j) pre1 pre2 hsplit
            ((mem_rowMajorCoords i j).mpr ⟨hi, hj⟩) hlt
        have := hstrict (i, j) hp1 l' hl'
        omega
  · intro hnone
    rcases hinv with ⟨_, h00, _⟩ | ⟨pre1, pre2, l, hsplit, hc, _, _, _⟩
    · exact h00
    · exfalso
      have hmem := mem_of_split _ pre1 pre2 _ hsplit
      have hb := (mem_rowMajorCoords
        (List.foldl (fmccStep b.rows) (10, 0, 0) rowMajorCoords).2.1
        (List.foldl (fmccStep b.rows) (10, 0, 0) rowMajorCoords).2.2).mp hmem
      exact hnone _ _ hb.1 hb.2 l hc

/-- C2: on a board of the spec's data model, if the board contains at least
one candidate-list cell then `find_most_constrained_cell()` returns the
coordinate of a candidate-list cell of minimum candidate-list length, and
every candidate-list cell strictly earlier in row-major order has a strictly
longer list (first-seen wins ties); if the board contains no candidate-list
cell it returns `(0, 0)`. -/
theorem C2_most_constrained_cell_spec (b : Board) (hok : listsOK b.rows) :
    ((∃ i j l, i < 9 ∧ j < 9 ∧ cellAt b.rows i j = Cell.candidates l) →
      ∃ l, cellAt b.rows b.find_most_constrained_cell.1
          b.find_most_constrained_cell.2 = Cell.candidates l ∧
        (∀ i j l', i < 9 → j < 9 → cellAt b.rows i j = Cell.candidates l' →
          l.length ≤ l'.length) ∧
        (∀ i j l', i < 9 → j < 9 → rmLt (i, j) b.find_most_constrained_cell →
          cellAt b.rows i j = Cell.candidates l' → l.length < l'.length)) ∧
    ((∀ i j, i < 9 → j < 9 → ∀ l, cellAt b.rows i j ≠ Cell.candidates l) →
      b.find_most_constrained_cell = (0, 0)) :=
  fmcc_full_spec b hok

/-- Witness for C2 on the fresh board (every cell is a candidate list): the
scan returns a candidate cell of minimal length. -/
theorem C2_witness :
    ∃ l, cellAt Board.init.rows Board.init.find_most_constrained_cell.1
        Board.init.find_most_constrained_cell.2 = Cell.candidates l ∧
      (∀ i j l', i < 9 → j < 9 → cellAt Board.init.rows i j = Cell.candidates l' →
        l.length ≤ l'.length) ∧
      (∀ i j l', i < 9 → j < 9 → rmLt (i, j) Board.init.find_most_constrained_cell →
        cellAt Board.init.rows i j = Cell.candidates l' → l.length < l'.length) :=
  (C2_most_constrained_cell_spec Board.init listsOK_init).1
    ⟨0, 0, digits, by decide, by decide, by decide⟩

/-! ### Step equations for the search drivers -/

theorem DFSAux_cons_goal (fuel : Nat) (b : Board) (rest : List Board)
    (h : b.goal_test = true) : DFSAux (fuel + 1) (b :: rest) = .found b := by
  simp [DFSAux, h]

theorem DFSAux_cons_prune (fuel : Nat) (b : Board) (rest : List Board)
    (hg : b.goal_test = false) (hf : b.failure_test = true) :
    DFSAux (fuel + 1) (b :: rest) = DFSAux fuel rest := by
  simp [DFSAux, hg, hf]

theorem DFSAux_cons_branch (fuel : Nat) (b : Board) (rest : List Board)
    (choices : List Nat) (hg : b.goal_test = false) (hf : b.failure_test = false)
    (hc : cellAt b.rows b.find_most_constrained_cell.1
      b.find_most_constrained_cell.2 = Cell.candidates choices) :
    DFSAux (fuel + 1) (b :: rest) =
      DFSAux fuel
        ((choices.map fun v =>
          b.update b.find_most_constrained_cell.1 b.find_most_constrained_cell.2 v).reverse
          ++ rest) := by
  simp only [DFSAux, hg, hf, Bool.false_eq_true, if_false, hc]

theorem DFSAux_cons_fault (fuel : Nat) (b : Board) (rest : List Board) (d : Nat)
    (hg : b.goal_test = false) (hf : b.failure_test = false)
    (hc : cellAt b.rows b.find_most_constrained_cell.1
      b.find_most_constrained_cell.2 = Cell.assigned d) :
    DFSAux (fuel + 1) (b :: rest) = .fault := by
  simp only [DFSAux, hg, hf, Bool.false_eq_true, if_false, hc]

theorem BFSAux_cons_goal (fuel : Nat) (b : Board) (rest : List Board)
    (h : b.goal_test = true) : BFSAux (fuel + 1) (b :: rest) = .found b := by
  simp [BFSAux, h]

theorem BFSAux_cons_prune (fuel : Nat) (b : Board) (rest : List Board)
    (hg : b.goal_test = false) (hf : b.failure_test = true) :
    BFSAux (fuel + 1) (b :: rest) = BFSAux fuel rest := by
  simp [BFSAux, hg, hf]

theorem BFSAux_cons_branch (fuel : Nat) (b : Board) (rest : List Board)
    (choices : List Nat) (hg : b.goal_test = false) (hf : b.failure_test = false)
    (hc : cellAt b.rows b.find_most_constrained_cell.1
      b.find_most_constrained_cell.2 = Cell.candidates choices) :
    BFSAux (fuel + 1) (b :: rest) =
      BFSAux fuel
        (rest ++ choices.map fun v =>
          b.update b.find_most_constrained_cell.1 b.find_most_constrained_cell.2 v) := by
  simp only [BFSAux, hg, hf, Bool.false_eq_true, if_false, hc]

theorem BFSAux_cons_fault (fuel : Nat) (b : Board) (rest : List Board) (d : Nat)
    (hg : b.goal_test = false) (hf : b.failure_test = false)
    (hc : cellAt b.rows b.find_most_constrained_cell.1
      b.find_most_constrained_cell.2 = Cell.assigned d) :
    BFSAux (fuel + 1) (b :: rest) = .fault := by
  simp only [BFSAux, hg, hf, Bool.false_eq_true, if_false, hc]

/-! ### Claim C3: `None` exactly on frontier exhaustion -/

theorem dfs_exhausted_sound (fuel : Nat) :
    ∀ frontier, DFSAux fuel frontier = .exhausted → DFSEmpties frontier := by
  induction fuel with
  | zero =>
    intro frontier h
    simp [DFSAux] at h
  | succ fuel ih =>
    intro frontier h
    match frontier with
    | [] => exact DFSEmpties.nil
    | b :: rest =>
      by_cases hg : b.goal_test
      · rw [DFSAux_cons_goal fuel b rest hg] at h
        cases h
      · rw [Bool.not_eq_true] at hg
        by_cases hf : b.failure_test
        · rw [DFSAux_cons_prune fuel b rest hg hf] at h
          exact DFSEmpties.prune b rest hg hf (ih rest h)
        · rw [Bool.not_eq_true] at hf
          rcases hc : cellAt b.rows b.find_most_constrained_cell.1
              b.find_most_constrained_cell.2 with d | choices
          · rw [DFSAux_cons_fault fuel b rest d hg hf hc] at h
            cases h
          · rw [DFSAux_cons_branch fuel b rest choices hg hf hc] at h
            exact DFSEmpties.branch b rest choices hg hf hc (ih _ h)

theorem dfs_empties_complete (frontier : List Board) (h : DFSEmpties frontier) :
    ∃ fuel, DFSAux fuel frontier = .exhausted := by
  induction h with
  | nil => exact ⟨1, rfl⟩
  | prune b rest hg hf _ ih =>
    obtain ⟨fuel, hfuel⟩ := ih
    exact ⟨fuel + 1, by rw [DFSAux_cons_prune fuel b rest hg hf]; exact hfuel⟩
  | branch b rest choices hg hf hc _ ih =>
    obtain ⟨fuel, hfuel⟩ := ih
    exact ⟨fuel + 1, by rw [DFSAux_cons_branch fuel b rest choices hg hf hc]; exact hfuel⟩

theorem bfs_exhausted_sound (fuel : Nat) :
    ∀ frontier, BFSAux fuel frontier = .exhausted → BFSEmpties frontier := by
  induction fuel with
  | zero =>
    intro frontier h
    simp [BFSAux] at h
  | succ fuel ih =>
    intro frontier h
    match frontier with
    | [] => exact BFSEmpties.nil
    | b :: rest =>
      by_cases hg : b.goal_test
      · rw [BFSAux_cons_goal fuel b rest hg] at h
        cases h
      · rw [Bool.not_eq_true] at hg
        by_cases hf : b.failure_test
        · rw [BFSAux_cons_prune fuel b rest hg hf] at h
          exact BFSEmpties.prune b rest hg hf (ih rest h)
        · rw [Bool.not_eq_true] at hf
          rcases hc : cellAt b.rows b.find_most_constrained_cell.1
              b.find_most_constrained_cell.2 with d | choices
          · rw [BFSAux_cons_fault fuel b rest d hg hf hc] at h
            cases h
          · rw [BFSAux_cons_branch fuel b rest choices hg hf hc] at h
            exact BFSEmpties.branch b rest choices hg hf hc (ih _ h)

theorem bfs_empties_complete (frontier : List Board) (h : BFSEmpties frontier) :
    ∃ fuel, BFSAux fuel frontier = .exhausted := by
  induction h with
  | nil => exact ⟨1, rfl⟩
  | prune b rest hg hf _ ih =>
    obtain ⟨fuel, hfuel⟩ := ih
    exact ⟨fuel + 1, by rw [BFSAux_cons_prune fuel b rest hg hf]; exact hfuel⟩
  | branch b rest choices hg hf hc _ ih =>
    obtain ⟨fuel, hfuel⟩ := ih
    exact ⟨fuel + 1, by rw [BFSAux_cons_branch fuel b rest choices hg hf hc]; exact hfuel⟩

/-- C3: for every input board, `DFS` (and likewise `BFS`) returns `None`
(`SearchOut.exhausted`, an ordinary return value distinct from a raised
fault) exactly when the driver loop pops every frontier board without any of
them passing `goal_test` and the frontier empties. -/
theorem C3_none_iff_frontier_empties (state : Board) :
    ((∃ fuel, DFS fuel state = SearchOut.exhausted) ↔ DFSEmpties [state]) ∧
    ((∃ fuel, BFS fuel state = SearchOut.exhausted) ↔ BFSEmpties [state]) ∧
    SearchOut.exhausted ≠ SearchOut.fault := by
  refine ⟨⟨fun ⟨fuel, h⟩ => dfs_exhausted_sound fuel [state] h,
      fun h => dfs_empties_complete [state] h⟩,
    ⟨fun ⟨fuel, h⟩ => bfs_exhausted_sound fuel [state] h,
      fun h => bfs_empties_complete [state] h⟩,
    fun h => nomatch h⟩

/-! ### Claim C9: a returned board always passes `goal_test` -/

theorem dfs_found_goal (fuel : Nat) :
    ∀ frontier b, DFSAux fuel frontier = .found b → b.goal_test = true := by
  induction fuel with
  | zero =>
    intro frontier b h
    simp [DFSAux] at h
  | succ fuel ih =>
    intro frontier b h
    match frontier with
    | [] => cases h
    | c :: rest =>
      by_cases hg : c.goal_test
      · rw [DFSAux_cons_goal fuel c rest hg] at h
        cases h
        exact hg
      · rw [Bool.not_eq_true] at hg
        by_cases hf : c.failure_test
        · rw [DFSAux_cons_prune fuel c rest hg hf] at h
          exact ih rest b h
        · rw [Bool.not_eq_true] at hf
          rcases hc : cellAt c.rows c.find_most_constrained_cell.1
              c.find_most_constrained_cell.2 with d | choices
          · rw [DFSAux_cons_fault fuel c rest d hg hf hc] at h
            cases h
          · rw [DFSAux_cons_branch fuel c rest choices hg hf hc] at h
            exact ih _ b h

theorem bfs_found_goal (fuel : Nat) :
    ∀ frontier b, BFSAux fuel frontier = .found b → b.goal_test = true := by
  induction fuel with
  | zero =>
    intro frontier b h
    simp [BFSAux] at h
  | succ fuel ih =>
    intro frontier b h
    match frontier with
    | [] => cases h
    | c :: rest =>
      by_cases hg : c.goal_test
      · rw [BFSAux_cons_goal fuel c rest hg] at h
        cases h
        exact hg
      · rw [Bool.not_eq_true] at hg
        by_cases hf : c.failure_test
        · rw [BFSAux_cons_prune fuel c rest hg hf] at h
          exact ih rest b h
        · rw [Bool.not_eq_true] at hf
          rcases hc : cellAt c.rows c.find_most_constrained_cell.1
              c.find_most_constrained_cell.2 with d | choices
          · rw [BFSAux_cons_fault fuel c rest d hg hf hc] at h
            cases h
          · rw [BFSAux_cons_branch fuel c rest choices hg hf hc] at h
            exact ih _ b h

/-- C9: whenever `DFS` (or `BFS`) returns a board rather than the
absent-result signal, that board passes `goal_test` — the drivers never
return an unsolved board, whatever the input frontier. -/
theorem C9_returned_board_is_solved (fuel : Nat) (state b : Board) :
    (DFS fuel state = SearchOut.found b → b.goal_test = true) ∧
    (BFS fuel state = SearchOut.found b → b.goal_test = true) :=
  ⟨fun h => dfs_found_goal fuel [state] b h, fun h => bfs_found_goal fuel [state] b h⟩

/-- Witness for C9: a board whose counter is already 81 is returned by both
drivers in one step and passes `goal_test`. -/
theorem C9_witness :
    Board.goal_test { rows := [], num_nums_placed := 81 } = true ∧
    Board.goal_test { rows := [], num_nums_placed := 81 } = true :=
  ⟨(C9_returned_board_is_solved 1 { rows := [], num_nums_placed := 81 }
      { rows := [], num_nums_placed := 81 }).1 (by decide),
   (C9_returned_board_is_solved 1 { rows := [], num_nums_placed := 81 }
      { rows := [], num_nums_placed := 81 }).2 (by decide)⟩

/-! ### Claim C4: deep copy isolates the original board -/

theorem getD_mem_or_default {α : Type _} (l : List α) (i : Nat) (d : α) :
    l.getD i d ∈ l ∨ l.getD i d = d := by
  by_cases h : i < l.length
  · left
    rw [List.getD_eq_getElem?_getD, List.getElem?_eq_getElem h]
    exact List.getElem_mem h
  · right
    rw [List.getD_eq_getElem?_getD, List.getElem?_eq_none (Nat.le_of_not_lt h)]
    rfl

theorem getD_append_below {α : Type _} (l ext : List α) (i : Nat) (d : α)
    (h : i < l.length) : (l ++ ext).getD i d = l.getD i d := by
  rw [List.getD_eq_getElem?_getD, List.getD_eq_getElem?_getD,
    List.getElem?_append_left h]

theorem copyHCell_store (σ : Store) (h : HCell) :
    ∃ ext, (copyHCell σ h).1 = σ ++ ext := by
  cases h with
  | assigned d => exact ⟨[], (List.append_nil σ).symm⟩
  | ref id => exact ⟨[σ.getD id []], rfl⟩

theorem copyHCell_ref_ge (σ : Store) (h : HCell) (id : Nat)
    (heq : (copyHCell σ h).2 = HCell.ref id) : σ.length ≤ id := by
  cases h with
  | assigned d => cases heq
  | ref i =>
    cases heq
    exact Nat.le_refl _

theorem copyHRow_store (row : List HCell) :
    ∀ σ : Store, ∃ ext, (copyHRow σ row).1 = σ ++ ext := by
  induction row with
  | nil => exact fun σ => ⟨[], (List.append_nil σ).symm⟩
  | cons h t ih =>
    intro σ
    obtain ⟨e1, he1⟩ := copyHCell_store σ h
    obtain ⟨e2, he2⟩ := ih (copyHCell σ h).1
    refine ⟨e1 ++ e2, ?_⟩
    show (copyHRow (copyHCell σ h).1 t).1 = σ ++ (e1 ++ e2)
    rw [he2, he1, List.append_assoc]

theorem copyHRow_refs_ge (row : List HCell) :
    ∀ (σ : Store) (h' : HCell), h' ∈ (copyHRow σ row).2 → ∀ id,
      h' = HCell.ref id → σ.length ≤ id := by
  induction row with
  | nil =>
    intro σ h' hmem
    simp [copyHRow] at hmem
  | cons h t ih =>
    intro σ h' hmem id heq
    have hmem' : h' = (copyHCell σ h).2 ∨ h' ∈ (copyHRow (copyHCell σ h).1 t).2 := by
      simpa [copyHRow] using hmem
    rcases hmem' with rfl | hmem'
    · exact copyHCell_ref_ge σ h id heq
    · obtain ⟨e1, he1⟩ := copyHCell_store σ h
      have hlen : σ.length ≤ (copyHCell σ h).1.length := by
        rw [he1, List.length_append]
        omega
      exact le_trans hlen (ih (copyHCell σ h).1 h' hmem' id heq)

theorem copyHRows_store (rows : List (List HCell)) :
    ∀ σ : Store, ∃ ext, (copyHRows σ rows).1 = σ ++ ext := by
  induction rows with
  | nil => exact fun σ => ⟨[], (List.append_nil σ).symm⟩
  | cons row t ih =>
    intro σ
    obtain ⟨e1, he1⟩ := copyHRow_store row σ
    obtain ⟨e2, he2⟩ := ih (copyHRow σ row).1
    refine ⟨e1 ++ e2, ?_⟩
    show (copyHRows (copyHRow σ row).1 t).1 = σ ++ (e1 ++ e2)
    rw [he2, he1, List.append_assoc]

theorem copyHRows_refs (rows : List (List HCell)) :
    ∀ σ : Store, refsAtLeast σ.length (copyHRows σ rows).2 := by
  induction rows with
  | nil =>
    intro σ row hrow
    simp [copyHRows] at hrow
  | cons row t ih =>
    intro σ row' hrow' h' hh' id heq
    have hmem' : row' = (copyHRow σ row).2 ∨
        row' ∈ (copyHRows (copyHRow σ row).1 t).2 := by
      simpa [copyHRows] using hrow'
    rcases hmem' with rfl | hmem'
    · exact copyHRow_refs_ge row σ h' hh' id heq
    · obtain ⟨e1, he1⟩ := copyHRow_store row σ
      have hlen : σ.length ≤ (copyHRow σ row).1.length := by
        rw [he1, List.length_append]
        omega
      exact le_trans hlen (ih (copyHRow σ row).1 row' hmem' h' hh' id heq)

theorem refsAtLeast_setHCell (n : Nat) (rows : List (List HCell)) (r c d : Nat)
    (h : refsAtLeast n rows) :
    refsAtLeast n (setHCell rows r c (HCell.assigned d)) := by
  intro row' hrow' h' hh' id heq
  rcases List.mem_or_eq_of_mem_set hrow' with hmem | hmemeq
  · exact h row' hmem h' hh' id heq
  · subst hmemeq
    rcases List.mem_or_eq_of_mem_set hh' with hmem2 | hmemeq2
    · rcases getD_mem_or_default rows r [] with hrowmem | hrownil
      · exact h _ hrowmem h' hmem2 id heq
      · rw [hrownil] at hmem2
        cases hmem2
    · subst hmemeq2
      cases heq

theorem grid_ref_ge (m : Nat) (rows : List (List HCell)) (hrefs : refsAtLeast m rows)
    (r c id : Nat)
    (hcell : (rows.getD r []).getD c (HCell.assigned 0) = HCell.ref id) : m ≤ id := by
  rcases getD_mem_or_default rows r [] with hrow | hrow
  · rcases getD_mem_or_default (rows.getD r []) c (HCell.assigned 0) with hc | hc
    · exact hrefs _ hrow _ hc id hcell
    · rw [hc] at hcell
      cases hcell
  · rw [hrow, List.getD_nil] at hcell
    cases hcell

theorem grid_ref_lt_of_refsBelowB (n : Nat) (rows : List (List HCell))
    (hb : refsBelowB n rows = true) (r c id : Nat)
    (hcell : (rows.getD r []).getD c (HCell.assigned 0) = HCell.ref id) : id < n := by
  rcases getD_mem_or_default rows r [] with hrow | hrow
  · rcases getD_mem_or_default (rows.getD r []) c (HCell.assigned 0) with hc | hc
    · have h1 := (List.all_eq_true.mp hb) _ hrow
      have h2 := (List.all_eq_true.mp h1) _ hc
      rw [hcell] at h2
      simpa using h2
    · rw [hc] at hcell
      cases hcell
  · rw [hrow, List.getD_nil] at hcell
    cases hcell

theorem readCell_assigned (σ : Store) (b : HBoard) (i j d : Nat)
    (h : (b.rows.getD i []).getD j (HCell.assigned 0) = HCell.assigned d) :
    readCell σ b i j = Cell.assigned d := by
  unfold readCell readHCell
  rw [h]

theorem readCell_ref (σ : Store) (b : HBoard) (i j id : Nat)
    (h : (b.rows.getD i []).getD j (HCell.assigned 0) = HCell.ref id) :
    readCell σ b i j = Cell.candidates (σ.getD id []) := by
  unfold readCell readHCell
  rw [h]

theorem hElim_assigned (rows1 : List (List HCell)) (σ0 : Store) (r c a d : Nat)
    (h : (rows1.getD r []).getD c (HCell.assigned 0) = HCell.assigned d) :
    hElim rows1 σ0 r c a = σ0 := by
  unfold hElim
  rw [h]

theorem hElim_ref (rows1 : List (List HCell)) (σ0 : Store) (r c a rid : Nat)
    (h : (rows1.getD r []).getD c (HCell.assigned 0) = HCell.ref rid) :
    hElim rows1 σ0 r c a = σ0.set rid ((σ0.getD rid []).erase a) := by
  unfold hElim
  rw [h]

theorem getD_hElim_below (rows1 : List (List HCell)) (σ0 : Store) (r c a m id : Nat)
    (hrefs : refsAtLeast m rows1) (hid : id < m) :
    (hElim rows1 σ0 r c a).getD id [] = σ0.getD id [] := by
  rcases hcell : (rows1.getD r []).getD c (HCell.assigned 0) with d | rid
  · rw [hElim_assigned rows1 σ0 r c a d hcell]
  · rw [hElim_ref rows1 σ0 r c a rid hcell, getD_set]
    rw [if_neg]
    intro hcon
    have := grid_ref_ge m rows1 hrefs r c rid hcell
    omega

theorem getD_hElimFold_below (rows1 : List (List HCell)) (coords : List (Nat × Nat))
    (a m : Nat) (hrefs : refsAtLeast m rows1) :
    ∀ (σ0 : Store) (id : Nat), id < m →
      (coords.foldl (fun s p => hElim rows1 s p.1 p.2 a) σ0).getD id [] =
        σ0.getD id [] := by
  induction coords with
  | nil => intro σ0 id _; rfl
  | cons p t ih =>
    intro σ0 id hid
    rw [List.foldl_cons, ih (hElim rows1 σ0 p.1 p.2 a) id hid,
      getD_hElim_below rows1 σ0 p.1 p.2 a m id hrefs hid]

/-- C4: deep-copying a board and then mutating the clone via `update` leaves
every cell of the original board (assigned digits and candidate-set
membership alike) reading exactly as before the mutation. -/
theorem C4_deepcopy_then_update_frame (σ : Store) (b : HBoard) (r c v : Nat)
    (hvalid : refsBelowB σ.length b.rows = true) (i j : Nat) :
    readCell (hUpdate (hDeepcopy σ b).1 (hDeepcopy σ b).2 r c v).1 b i j =
      readCell σ b i j := by
  rcases hcell : (b.rows.getD i []).getD j (HCell.assigned 0) with d | id
  · rw [readCell_assigned _ b i j d hcell, readCell_assigned σ b i j d hcell]
  · rw [readCell_ref _ b i j id hcell, readCell_ref σ b i j id hcell]
    congr 1
    have hlt := grid_ref_lt_of_refsBelowB σ.length b.rows hvalid i j id hcell
    have hfresh : refsAtLeast σ.length
        (setHCell (hDeepcopy σ b).2.rows r c (HCell.assigned v)) :=
      refsAtLeast_setHCell σ.length _ r c v (copyHRows_refs b.rows σ)
    have h1 : (hUpdate (hDeepcopy σ b).1 (hDeepcopy σ b).2 r c v).1 =
        (colCoords c ++ rowCoords r ++ subgrid_coordinates r c).foldl
          (fun s p =>
            hElim (setHCell (hDeepcopy σ b).2.rows r c (HCell.assigned v)) s p.1 p.2 v)
          (hDeepcopy σ b).1 := rfl
    rw [h1, getD_hElimFold_below _ _ v σ.length hfresh _ id hlt]
    obtain ⟨ext, hext⟩ := copyHRows_store b.rows σ
    have h2 : (hDeepcopy σ b).1 = (copyHRows σ b.rows).1 := rfl
    rw [h2, hext, getD_append_below σ ext id [] hlt]

/-- Witness for C4: a one-row board `[ref 0, ref 1]` over the store
`[[1,2],[1,2]]`; after deep copy and `update(0,0,1)` on the clone (which
erases 1 from the clone's peer list), the original's peer cell still reads
`candidates [1,2]`. -/
theorem C4_witness :
    refsBelowB ([[1, 2], [1, 2]] : Store).length
      (HBoard.mk [[HCell.ref 0, HCell.ref 1]] 0).rows = true ∧
    readCell (hUpdate (hDeepcopy [[1, 2], [1, 2]] (HBoard.mk [[HCell.ref 0, HCell.ref 1]] 0)).1
        (hDeepcopy [[1, 2], [1, 2]] (HBoard.mk [[HCell.ref 0, HCell.ref 1]] 0)).2 0 0 1).1
      (HBoard.mk [[HCell.ref 0, HCell.ref 1]] 0) 0 1 =
      readCell [[1, 2], [1, 2]] (HBoard.mk [[HCell.ref 0, HCell.ref 1]] 0) 0 1 :=
  ⟨by decide,
   C4_deepcopy_then_update_frame [[1, 2], [1, 2]]
     (HBoard.mk [[HCell.ref 0, HCell.ref 1]] 0) 0 0 1 (by decide) 0 1⟩

/-! ### Counting cells -/

theorem getD_eq_get {α : Type _} (l : List α) (n : Nat) (d : α) (h : n < l.length) :
    l.getD n d = l.get ⟨n, h⟩ := by
  rw [List.getD_eq_getElem?_getD, List.getElem?_eq_getElem h]
  rfl

theorem sum_map_set {α : Type _} (f : α → Nat) :
    ∀ (l : List α) (n : Nat) (v : α) (h : n < l.length),
    ((l.set n v).map f).sum + f (l.get ⟨n, h⟩) = (l.map f).sum + f v := by
  intro l
  induction l with
  | nil =>
    intro n v h
    cases h
  | cons a t ih =>
    intro n v h
    cases n with
    | zero =>
      simp only [List.set, List.map_cons, List.sum_cons, List.get]
      omega
    | succ m =>
      have hm : m < t.length := by simpa using h
      have hstep := ih m v hm
      simp only [List.set, List.map_cons, List.sum_cons, List.get]
      omega

theorem countW_setCell (w : Cell → Nat) (rows : List (List Cell)) (r c : Nat)
    (v : Cell) (hr : r < rows.length) (hc : c < (rows.getD r []).length) :
    countW w (setCell rows r c v) + w (cellAt rows r c) = countW w rows + w v := by
  unfold countW setCell cellAt
  have houter := sum_map_set (fun row => (row.map w).sum) rows r
    ((rows.getD r []).set c v) hr
  have hinner := sum_map_set w (rows.getD r []) c v hc
  rw [← getD_eq_get rows r [] hr] at houter
  rw [← getD_eq_get (rows.getD r []) c (Cell.assigned 0) hc] at hinner
  omega

theorem set_out_of_range {α : Type _} (l : List α) (n : Nat) (v : α)
    (h : ¬n < l.length) : l.set n v = l :=
  List.set_eq_of_length_le (Nat.le_of_not_lt h)

theorem countW_elimAt (w : Cell → Nat)
    (hw : ∀ cell a, w (remove_if_exists cell a) = w cell)
    (rows : List (List Cell)) (r c a : Nat) :
    countW w (elimAt rows r c a) = countW w rows := by
  unfold elimAt
  by_cases hr : r < rows.length
  · by_cases hc : c < (rows.getD r []).length
    · have := countW_setCell w rows r c (remove_if_exists (cellAt rows r c) a) hr hc
      rw [hw (cellAt rows r c) a] at this
      omega
    · unfold setCell
      rw [set_out_of_range _ _ _ hc]
      have := sum_map_set (fun row => (row.map w).sum) rows r (rows.getD r []) hr
      rw [← getD_eq_get rows r [] hr] at this
      unfold countW
      omega
  · unfold setCell
    rw [set_out_of_range _ _ _ hr]

theorem countW_elimList (w : Cell → Nat)
    (hw : ∀ cell a, w (remove_if_exists cell a) = w cell)
    (coords : List (Nat × Nat)) :
    ∀ (rows : List (List Cell)) (a : Nat),
    countW w (elimList rows coords a) = countW w rows := by
  induction coords with
  | nil => intro rows a; rfl
  | cons p t ih =>
    intro rows a
    rw [elimList, List.foldl_cons, ← elimList, ih, countW_elimAt w hw]

theorem assignedWeight_remove (cell : Cell) (a : Nat) :
    Cell.assignedWeight (remove_if_exists cell a) = Cell.assignedWeight cell := by
  cases cell <;> rfl

theorem candWeight_remove (cell : Cell) (a : Nat) :
    Cell.candWeight (remove_if_exists cell a) = Cell.candWeight cell := by
  cases cell <;> rfl

theorem cellAt_candidates_in_range (rows : List (List Cell)) (i j : Nat)
    (l : List Nat) (h : cellAt rows i j = Cell.candidates l) :
    i < rows.length ∧ j < (rows.getD i []).length := by
  by_cases hi : i < rows.length
  · by_cases hj : j < (rows.getD i []).length
    · exact ⟨hi, hj⟩
    · exfalso
      unfold cellAt at h
      rw [List.getD_eq_getElem?_getD (rows.getD i []),
        List.getElem?_eq_none (Nat.le_of_not_lt hj)] at h
      cases h
  · exfalso
    unfold cellAt at h
    rw [List.getD_eq_getElem?_getD rows, List.getElem?_eq_none (Nat.le_of_not_lt hi)]
      at h
    simp only [Option.getD_none, List.getD_nil] at h
    cases h

theorem assignedCount_update_of_candidates (b : Board) (r c v : Nat) (l : List Nat)
    (hcell : cellAt b.rows r c = Cell.candidates l) :
    assignedCount (b.update r c v).rows = assignedCount b.rows + 1 := by
  obtain ⟨hr, hc⟩ := cellAt_candidates_in_range b.rows r c l hcell
  rw [update_rows_eq]
  unfold assignedCount
  rw [countW_elimList _ assignedWeight_remove]
  have := countW_setCell Cell.assignedWeight b.rows r c (Cell.assigned v) hr hc
  rw [hcell] at this
  simp only [Cell.assignedWeight] at this
  omega

theorem candCount_update_of_candidates (b : Board) (r c v : Nat) (l : List Nat)
    (hcell : cellAt b.rows r c = Cell.candidates l) :
    candCount (b.update r c v).rows + 1 = candCount b.rows := by
  obtain ⟨hr, hc⟩ := cellAt_candidates_in_range b.rows r c l hcell
  rw [update_rows_eq]
  unfold candCount
  rw [countW_elimList _ candWeight_remove]
  have := countW_setCell Cell.candWeight b.rows r c (Cell.assigned v) hr hc
  rw [hcell] at this
  simp only [Cell.candWeight] at this
  omega

theorem assigned_add_cand (rows : List (List Cell)) :
    assignedCount rows + candCount rows = (rows.map List.length).sum := by
  unfold assignedCount candCount countW
  induction rows with
  | nil => rfl
  | cons row t ih =>
    simp only [List.map_cons, List.sum_cons]
    have hrow : (row.map Cell.assignedWeight).sum + (row.map Cell.candWeight).sum =
        row.length := by
      induction row with
      | nil => rfl
      | cons cell rt ihr =>
        simp only [List.map_cons, List.sum_cons, List.length_cons]
        cases cell <;> simp [Cell.assignedWeight, Cell.candWeight] <;> omega
    omega

theorem total_cells_81 (rows : List (List Cell)) (hg : grid9 rows) :
    (rows.map List.length).sum = 81 := by
  have hmap : rows.map List.length = List.replicate 9 9 := by
    apply List.ext_getElem
    · rw [List.length_map, List.length_replicate]
      exact hg.1
    · intro i h1 h2
      rw [List.getElem_map, List.getElem_replicate]
      have hi : i < 9 := by
        rw [List.length_replicate] at h2
        exact h2
      have hlen := hg.2 i hi
      rw [getD_eq_get rows i [] (by rw [hg.1]; exact hi)] at hlen
      exact hlen
  rw [hmap]
  decide

theorem candCount_pos_of_candidates (rows : List (List Cell)) (i j : Nat)
    (l : List Nat) (h : cellAt rows i j = Cell.candidates l) :
    1 ≤ candCount rows := by
  obtain ⟨hi, hj⟩ := cellAt_candidates_in_range rows i j l h
  have hrowmem : rows.getD i [] ∈ rows := by
    rcases getD_mem_or_default rows i [] with hm | hm
    · exact hm
    · exfalso
      unfold cellAt at h
      rw [hm, List.getD_nil] at h
      cases h
  have hcellmem : cellAt rows i j ∈ rows.getD i [] := by
    rcases getD_mem_or_default (rows.getD i []) j (Cell.assigned 0) with hm | hm
    · exact hm
    · exfalso
      unfold cellAt at h
      rw [hm] at h
      cases h
  have h1 : Cell.candWeight (cellAt rows i j) ≤ ((rows.getD i []).map Cell.candWeight).sum :=
    List.single_le_sum (fun x _ => Nat.zero_le _) _
      (List.mem_map_of_mem Cell.candWeight hcellmem)
  have h2 : ((rows.getD i []).map Cell.candWeight).sum ≤
      (rows.map fun row => (row.map Cell.candWeight).sum).sum :=
    List.single_le_sum (fun x _ => Nat.zero_le _) _
      (List.mem_map_of_mem (fun row => (row.map Cell.candWeight).sum) hrowmem)
  rw [h] at h1
  simp only [Cell.candWeight] at h1
  unfold candCount countW
  omega

/-! ### Backward analysis of `update` -/

theorem elimList_back (coords : List (Nat × Nat)) :
    ∀ (rows : List (List Cell)) (a i j : Nat),
    (∀ d, cellAt (elimList rows coords a) i j = Cell.assigned d →
      cellAt rows i j = Cell.assigned d) ∧
    (∀ l1, cellAt (elimList rows coords a) i j = Cell.candidates l1 →
      ∃ l0, cellAt rows i j = Cell.candidates l0 ∧ l1 ⊆ l0 ∧
        ∀ x, x ≠ a → x ∈ l0 → x ∈ l1) := by
  induction coords with
  | nil =>
    intro rows a i j
    exact ⟨fun d h => h, fun l1 h => ⟨l1, h, fun x hx => hx, fun x _ hx => hx⟩⟩
  | cons p t ih =>
    intro rows a i j
    rw [elimList, List.foldl_cons, ← elimList]
    have hstep := cellAt_elimAt_cases rows p.1 p.2 a i j
    obtain ⟨ihA, ihC⟩ := ih (elimAt rows p.1 p.2 a) a i j
    constructor
    · intro d h
      have h0 := ihA d h
      rcases hstep with heq | heq
      · rw [heq] at h0
        exact h0
      · rw [heq] at h0
        cases hcell : cellAt rows i j with
        | assigned e =>
          rw [hcell] at h0
          simp only [remove_if_exists] at h0
          exact h0
        | candidates l =>
          rw [hcell] at h0
          simp only [remove_if_exists] at h0
          cases h0
    · intro l1 h
      obtain ⟨lmid, hmid, hsub, hkeep⟩ := ihC l1 h
      rcases hstep with heq | heq
      · rw [heq] at hmid
        exact ⟨lmid, hmid, hsub, hkeep⟩
      · rw [heq] at hmid
        cases hcell : cellAt rows i j with
        | assigned e =>
          rw [hcell] at hmid
          simp only [remove_if_exists] at hmid
          cases hmid
        | candidates l0 =>
          rw [hcell] at hmid
          simp only [remove_if_exists] at hmid
          cases hmid
          refine ⟨l0, rfl, hsub.trans (List.erase_subset _ _), ?_⟩
          intro x hx hx0
          exact hkeep x hx ((List.mem_erase_of_ne hx).mpr hx0)

theorem update_back (b : Board) (r c v i j : Nat) (hne : ¬(i = r ∧ j = c)) :
    (∀ d, cellAt (b.update r c v).rows i j = Cell.assigned d →
      cellAt b.rows i j = Cell.assigned d) ∧
    (∀ l1, cellAt (b.update r c v).rows i j = Cell.candidates l1 →
      ∃ l0, cellAt b.rows i j = Cell.candidates l0 ∧ l1 ⊆ l0 ∧
        ∀ x, x ≠ v → x ∈ l0 → x ∈ l1) := by
  rw [update_rows_eq]
  obtain ⟨hA, hC⟩ := elimList_back
    (colCoords c ++ rowCoords r ++ subgrid_coordinates r c)
    (setCell b.rows r c (Cell.assigned v)) v i j
  have hset : cellAt (setCell b.rows r c (Cell.assigned v)) i j = cellAt b.rows i j :=
    cellAt_setCell_ne _ _ _ _ _ _ (fun hcon => hne ⟨hcon.1.symm, hcon.2.symm⟩)
  constructor
  · intro d h
    have h0 := hA d h
    rw [hset] at h0
    exact h0
  · intro l1 h
    obtain ⟨l0, h0, hsub, hkeep⟩ := hC l1 h
    rw [hset] at h0
    exact ⟨l0, h0, hsub, hkeep⟩

theorem update_sets_cell (b : Board) (r c v : Nat) (hr : r < b.rows.length)
    (hc : c < (b.rows.getD r []).length) :
    cellAt (b.update r c v).rows r c = Cell.assigned v := by
  rw [update_rows_eq]
  exact assigned_elimList _ _ _ _ _ _ (cellAt_setCell_self b.rows r c _ hr hc)

theorem sharesUnit_symm (r c i j : Nat) (h : sharesUnit r c i j) :
    sharesUnit i j r c := by
  unfold sharesUnit at h ⊢
  omega

/-! ### Preservation of the search invariants by a driver `update` -/

theorem counterOK_update (b : Board) (r c v : Nat) (l : List Nat)
    (hcell : cellAt b.rows r c = Cell.candidates l) (h : counterOK b) :
    counterOK (b.update r c v) := by
  unfold counterOK
  rw [update_num, assignedCount_update_of_candidates b r c v l hcell, h]

theorem assignedDigits_update (b : Board) (r c v : Nat) (hok : listsOK b.rows)
    (l : List Nat) (hcell : cellAt b.rows r c = Cell.candidates l) (hv : v ∈ l)
    (h : assignedDigits b) : assignedDigits (b.update r c v) := by
  intro i j d hi hj hd
  by_cases hij : i = r ∧ j = c
  · obtain ⟨rfl, rfl⟩ := hij
    obtain ⟨hr, hc⟩ := cellAt_candidates_in_range b.rows i j l hcell
    rw [update_sets_cell b i j v hr hc] at hd
    cases hd
    exact (hok i j l hcell).2 hv
  · exact h i j d hi hj ((update_back b r c v i j hij).1 d hd)

theorem extendsB_update (b0 b : Board) (r c v : Nat) (l : List Nat)
    (hcell : cellAt b.rows r c = Cell.candidates l) (h : extendsB b0 b) :
    extendsB b0 (b.update r c v) := by
  intro i j d hd
  have hb := h i j d hd
  by_cases hij : i = r ∧ j = c
  · obtain ⟨rfl, rfl⟩ := hij
    rw [hb] at hcell
    cases hcell
  · exact update_keeps_assigned_peer b r c v i j hij d hb

theorem consistent_update (b : Board) (hg : grid9 b.rows) (hok : listsOK b.rows)
    (hcons : consistent b) (r c : Nat) (hr : r < 9) (hc : c < 9) (l : List Nat)
    (hcell : cellAt b.rows r c = Cell.candidates l) (v : Nat) (hv : v ∈ l) :
    consistent (b.update r c v) := by
  have hrange := cellAt_candidates_in_range b.rows r c l hcell
  have hset := update_sets_cell b r c v hrange.1 hrange.2
  intro i j r' c' hi hj hr' hc' hshare hne d hd
  by_cases hrc : r' = r ∧ c' = c
  · obtain ⟨rfl, rfl⟩ := hrc
    rw [hset] at hd
    cases hd
    constructor
    · intro e he
      by_cases hij : i = r' ∧ j = c'
      · exact absurd hij hne
      · have he0 := (update_back b r' c' v i j hij).1 e he
        have h2 := hcons r' c' i j hr' hc' hi hj (sharesUnit_symm r' c' i j hshare)
          (fun hcon => hne ⟨hcon.1.symm, hcon.2.symm⟩) e he0
        have h3 := h2.2 l hcell
        intro heq
        rw [heq] at h3
        exact h3 hv
    · intro l' hl'
      have hnd := update_peer_no_digit b r' c' v hg hok i j hi hj hshare
      exact hnd l' hl'
  · have hd0 := (update_back b r c v r' c' hrc).1 d hd
    constructor
    · intro e he
      by_cases hij : i = r ∧ j = c
      · obtain ⟨rfl, rfl⟩ := hij
        rw [hset] at he
        cases he
        have h2 := hcons i j r' c' hi hj hr' hc' hshare hne d hd0
        have h3 := h2.2 l hcell
        intro heq
        rw [heq] at hv
        exact h3 hv
      · have he0 := (update_back b r c v i j hij).1 e he
        exact (hcons i j r' c' hi hj hr' hc' hshare hne d hd0).1 e he0
    · intro l' hl'
      by_cases hij : i = r ∧ j = c
      · obtain ⟨rfl, rfl⟩ := hij
        rw [hset] at hl'
        cases hl'
      · obtain ⟨l0, h0, hsub, _⟩ := (update_back b r c v i j hij).2 l' hl'
        have h3 := (hcons i j r' c' hi hj hr' hc' hshare hne d hd0).2 l0 h0
        exact fun hmem => h3 (hsub hmem)

theorem reach_update (b0 b : Board) (hR : Reach b0 b) (r c : Nat) (hr : r < 9)
    (hc : c < 9) (l : List Nat) (hcell : cellAt b.rows r c = Cell.candidates l)
    (v : Nat) (hv : v ∈ l) : Reach b0 (b.update r c v) :=
  { wf := grid9_update b r c v hR.wf
    ok := listsOK_update b r c v hR.ok
    counter := counterOK_update b r c v l hcell hR.counter
    cons := consistent_update b hR.wf hR.ok hR.cons r c hr hc l hcell v hv
    digs := assignedDigits_update b r c v hR.ok l hcell hv hR.digs
    ext := extendsB_update b0 b r c v l hcell hR.ext }

theorem compat_update (s : Nat → Nat → Nat) (hs : validSolution s) (b : Board)
    (hcompat : compat s b) (r c : Nat) (hr : r < 9) (hc : c < 9) (l : List Nat)
    (hcell : cellAt b.rows r c = Cell.candidates l) :
    compat s (b.update r c (s r c)) := by
  have hrange := cellAt_candidates_in_range b.rows r c l hcell
  have hset := update_sets_cell b r c (s r c) hrange.1 hrange.2
  intro i j hi hj
  by_cases hij : i = r ∧ j = c
  · obtain ⟨rfl, rfl⟩ := hij
    constructor
    · intro d hd
      rw [hset] at hd
      cases hd
      rfl
    · intro l' hl'
      rw [hset] at hl'
      cases hl'
  · constructor
    · intro d hd
      exact (hcompat i j hi hj).1 d ((update_back b r c (s r c) i j hij).1 d hd)
    · intro l' hl'
      by_cases hshare : sharesUnit r c i j
      · obtain ⟨l0, h0, hsub, hkeep⟩ := (update_back b r c (s r c) i j hij).2 l' hl'
        have hmem0 := (hcompat i j hi hj).2 l0 h0
        exact hkeep (s i j) (hs.2 r hr c hc i hi j hj hshare hij) hmem0
      · have hnotmem : ∀ p ∈ colCoords c ++ rowCoords r ++ subgrid_coordinates r c,
            ¬(p.1 = i ∧ p.2 = j) := by
          intro p hp hpeq
          obtain ⟨hp1, hp2⟩ := hpeq
          apply hshare
          rcases List.mem_append.mp hp with hp' | hp'
          · rcases List.mem_append.mp hp' with hp'' | hp''
            · have hm := (mem_colCoords c p.1 p.2).mp hp''
              exact Or.inr (Or.inl (by rw [← hp2, hm.1]))
            · have hm := (mem_rowCoords r p.1 p.2).mp hp''
              exact Or.inl (by rw [← hp1, hm.1])
          · have hm := (mem_subgrid_coordinates r c p.1 p.2).mp hp'
            rw [hp1, hp2] at hm
            exact Or.inr (Or.inr hm)
        have hunch : cellAt (b.update r c (s r c)).rows i j = cellAt b.rows i j := by
          rw [update_rows_eq, cellAt_elimList_not_mem _ _ _ _ _ hnotmem]
          exact cellAt_setCell_ne _ _ _ _ _ _ (fun hcon => hij ⟨hcon.1.symm, hcon.2.symm⟩)
        rw [hunch] at hl'
        exact (hcompat i j hi hj).2 l' hl'

/-! ### Compatible boards never fail, and a branch cell always exists -/

theorem exists_coords_of_mem (rows : List (List Cell)) (cell : Cell)
    (h : ∃ row ∈ rows, cell ∈ row) :
    ∃ i j, i < rows.length ∧ j < (rows.getD i []).length ∧ cellAt rows i j = cell := by
  obtain ⟨row, hrow, hcell⟩ := h
  obtain ⟨i, hi, hieq⟩ := List.getElem_of_mem hrow
  obtain ⟨j, hj, hjeq⟩ := List.getElem_of_mem hcell
  have hrowi : rows.getD i [] = row := by
    rw [getD_eq_get rows i [] hi]
    exact hieq
  refine ⟨i, j, hi, ?_, ?_⟩
  · rw [hrowi]
    exact hj
  · unfold cellAt
    rw [hrowi, getD_eq_get row j (Cell.assigned 0) hj]
    exact hjeq

theorem failure_gives_empty (b : Board) (h : b.failure_test = true) :
    ∃ i j, i < b.rows.length ∧ j < (b.rows.getD i []).length ∧
      cellAt b.rows i j = Cell.candidates [] := by
  have hex : ∃ row ∈ b.rows, Cell.candidates [] ∈ row := by
    simpa [Board.failure_test, List.any_eq_true, beq_iff_eq] using h
  exact exists_coords_of_mem b.rows (Cell.candidates []) hex

theorem compat_not_failure (s : Nat → Nat → Nat) (b : Board) (hg : grid9 b.rows)
    (hcompat : compat s b) : b.failure_test = false := by
  by_contra hcon
  rw [Bool.not_eq_false] at hcon
  obtain ⟨i, j, hi, hj, hcell⟩ := failure_gives_empty b hcon
  have hi9 : i < 9 := by
    rw [hg.1] at hi
    exact hi
  have hj9 : j < 9 := by
    rw [hg.2 i hi9] at hj
    exact hj
  have := (hcompat i j hi9 hj9).2 [] hcell
  simp at this

theorem exists_candidates_of_candCount_pos (rows : List (List Cell))
    (hg : grid9 rows) (h : 1 ≤ candCount rows) :
    ∃ i j l, i < 9 ∧ j < 9 ∧ cellAt rows i j = Cell.candidates l := by
  by_contra hnone
  push_neg at hnone
  have hzero : candCount rows = 0 := by
    unfold candCount countW
    apply List.sum_eq_zero
    intro x hx
    obtain ⟨row, hrow, rfl⟩ := List.mem_map.mp hx
    apply List.sum_eq_zero
    intro y hy
    obtain ⟨cell, hcellmem, rfl⟩ := List.mem_map.mp hy
    cases hcl : cell with
    | assigned d => rfl
    | candidates l =>
      exfalso
      obtain ⟨i, j, hi, hj, hcat⟩ :=
        exists_coords_of_mem rows cell ⟨row, hrow, hcellmem⟩
      have hi9 : i < 9 := by
        rw [hg.1] at hi
        exact hi
      have hj9 : j < 9 := by
        rw [hg.2 i hi9] at hj
        exact hj
      exact hnone i j l hi9 hj9 (by rw [hcat, hcl])
  omega

theorem goal_false_num_ne (b : Board) (hg : b.goal_test = false) :
    b.num_nums_placed ≠ 81 := by
  intro hcon
  unfold Board.goal_test at hg
  rw [hcon] at hg
  simp [boardSize] at hg

theorem reach_branch_candidates (b0 b : Board) (hR : Reach b0 b)
    (hg : b.goal_test = false) :
    ∃ choices, cellAt b.rows b.find_most_constrained_cell.1
      b.find_most_constrained_cell.2 = Cell.candidates choices := by
  have h81 := assigned_add_cand b.rows
  rw [total_cells_81 b.rows hR.wf] at h81
  have hnum := goal_false_num_ne b hg
  have hassigned : assignedCount b.rows ≠ 81 := fun hcon => hnum (hR.counter.trans hcon)
  have hcand : 1 ≤ candCount b.rows := by omega
  obtain ⟨l, hl, _, _⟩ := (fmcc_full_spec b hR.ok).1
    (exists_candidates_of_candCount_pos b.rows hR.wf hcand)
  exact ⟨l, hl⟩

/-! ### Frontier measure arithmetic -/

theorem frontierMeasure_cons (b : Board) (rest : List Board) :
    frontierMeasure (b :: rest) = 10 ^ (candCount b.rows + 1) + frontierMeasure rest := by
  simp [frontierMeasure]

theorem frontierMeasure_append (l1 l2 : List Board) :
    frontierMeasure (l1 ++ l2) = frontierMeasure l1 + frontierMeasure l2 := by
  simp [frontierMeasure]

theorem frontierMeasure_reverse (l : List Board) :
    frontierMeasure l.reverse = frontierMeasure l := by
  simp [frontierMeasure, List.sum_reverse]

theorem sum_map_constant {α : Type _} (l : List α) (k : Nat) :
    (l.map fun _ => k).sum = l.length * k := by
  induction l with
  | nil => simp
  | cons a t ih =>
    simp only [List.map_cons, List.sum_cons, List.length_cons, ih]
    rw [Nat.succ_mul]
    omega

theorem frontierMeasure_children (b : Board) (r c : Nat) (choices : List Nat)
    (hcell : cellAt b.rows r c = Cell.candidates choices) :
    frontierMeasure (choices.map fun v => b.update r c v) =
      choices.length * 10 ^ candCount b.rows := by
  unfold frontierMeasure
  rw [List.map_map]
  have hpt : ∀ v, 10 ^ (candCount (b.update r c v).rows + 1) =
      10 ^ candCount b.rows := by
    intro v
    have h := candCount_update_of_candidates b r c v choices hcell
    rw [← h]
  have hmapeq : choices.map ((fun bd : Board => 10 ^ (candCount bd.rows + 1)) ∘
      fun v => b.update r c v) = choices.map fun _ => 10 ^ candCount b.rows :=
    List.map_congr_left fun v _ => hpt v
  rw [hmapeq, sum_map_constant]

/-! ### The drivers succeed on a compatible frontier -/

theorem frontierMeasure_pos (frontier : List Board) (b : Board) (hb : b ∈ frontier) :
    1 ≤ frontierMeasure frontier := by
  have h1 : 10 ^ (candCount b.rows + 1) ≤ frontierMeasure frontier :=
    List.single_le_sum (fun x _ => Nat.zero_le _) _ (List.mem_map_of_mem _ hb)
  have h2 : 1 ≤ 10 ^ (candCount b.rows + 1) := Nat.one_le_pow _ _ (by omega)
  omega

theorem branch_measure_le (b : Board) (rest : List Board) (choices : List Nat)
    (hcell : cellAt b.rows b.find_most_constrained_cell.1
      b.find_most_constrained_cell.2 = Cell.candidates choices)
    (hlen : choices.length ≤ 9) (fuel : Nat)
    (hmeas : frontierMeasure (b :: rest) ≤ fuel + 1) :
    frontierMeasure (choices.map fun v =>
        b.update b.find_most_constrained_cell.1 b.find_most_constrained_cell.2 v) +
      frontierMeasure rest ≤ fuel := by
  rw [frontierMeasure_cons] at hmeas
  rw [frontierMeasure_children b _ _ choices hcell]
  have hp : 1 ≤ 10 ^ candCount b.rows := Nat.one_le_pow _ _ (by omega)
  have h1 : choices.length * 10 ^ candCount b.rows ≤ 9 * 10 ^ candCount b.rows :=
    Nat.mul_le_mul_right _ hlen
  have hsucc : 10 ^ (candCount b.rows + 1) = 10 ^ candCount b.rows * 10 :=
    pow_succ 10 (candCount b.rows)
  generalize hq : (10 : Nat) ^ candCount b.rows = P at h1 hp hsucc
  generalize hX : (10 : Nat) ^ (candCount b.rows + 1) = X at hsucc hmeas
  omega

theorem dfs_succeeds (s : Nat → Nat → Nat) (hs : validSolution s) (b0 : Board) :
    ∀ (fuel : Nat) (frontier : List Board),
    frontierMeasure frontier ≤ fuel →
    (∀ b ∈ frontier, Reach b0 b) →
    (∃ b ∈ frontier, compat s b) →
    ∃ res, DFSAux fuel frontier = .found res ∧ Reach b0 res ∧
      res.goal_test = true := by
  intro fuel
  induction fuel with
  | zero =>
    intro frontier hmeas hreach hcompat
    exfalso
    obtain ⟨b, hb, _⟩ := hcompat
    have := frontierMeasure_pos frontier b hb
    omega
  | succ fuel ih =>
    intro frontier hmeas hreach hcompat
    cases frontier with
    | nil =>
      obtain ⟨b, hb, _⟩ := hcompat
      cases hb
    | cons b rest =>
      have hRb := hreach b (List.mem_cons_self _ _)
      by_cases hg : b.goal_test
      · exact ⟨b, DFSAux_cons_goal fuel b rest hg, hRb, hg⟩
      · rw [Bool.not_eq_true] at hg
        by_cases hf : b.failure_test
        · rw [DFSAux_cons_prune fuel b rest hg hf]
          obtain ⟨w, hw, hcw⟩ := hcompat
          have hwrest : w ∈ rest := by
            rcases List.mem_cons.mp hw with rfl | h
            · have hnofail := compat_not_failure s w hRb.wf hcw
              rw [hnofail] at hf
              simp at hf
            · exact h
          have hmeas' : frontierMeasure rest ≤ fuel := by
            rw [frontierMeasure_cons] at hmeas
            have hp : 1 ≤ 10 ^ (candCount b.rows + 1) := Nat.one_le_pow _ _ (by omega)
            omega
          exact ih rest hmeas' (fun x hx => hreach x (List.mem_cons_of_mem _ hx))
            ⟨w, hwrest, hcw⟩
        · rw [Bool.not_eq_true] at hf
          obtain ⟨choices, hchoices⟩ := reach_branch_candidates b0 b hRb hg
          rw [DFSAux_cons_branch fuel b rest choices hg hf hchoices]
          have hrange := cellAt_candidates_in_range b.rows _ _ choices hchoices
          have hr9 : b.find_most_constrained_cell.1 < 9 := by
            have := hrange.1
            rw [hRb.wf.1] at this
            exact this
          have hc9 : b.find_most_constrained_cell.2 < 9 := by
            have := hrange.2
            rw [hRb.wf.2 _ hr9] at this
            exact this
          have hchild : ∀ x ∈ ((choices.map fun v =>
              b.update b.find_most_constrained_cell.1
                b.find_most_constrained_cell.2 v).reverse ++ rest), Reach b0 x := by
            intro x hx
            rcases List.mem_append.mp hx with hx | hx
            · rw [List.mem_reverse] at hx
              obtain ⟨v, hv, rfl⟩ := List.mem_map.mp hx
              exact reach_update b0 b hRb _ _ hr9 hc9 choices hchoices v hv
            · exact hreach x (List.mem_cons_of_mem _ hx)
          have hcompat' : ∃ x ∈ ((choices.map fun v =>
              b.update b.find_most_constrained_cell.1
                b.find_most_constrained_cell.2 v).reverse ++ rest), compat s x := by
            obtain ⟨w, hw, hcw⟩ := hcompat
            rcases List.mem_cons.mp hw with rfl | hwr
            · have hmem := (hcw _ _ hr9 hc9).2 choices hchoices
              refine ⟨w.update w.find_most_constrained_cell.1
                  w.find_most_constrained_cell.2
                  (s w.find_most_constrained_cell.1 w.find_most_constrained_cell.2),
                ?_, ?_⟩
              · exact List.mem_append.mpr (Or.inl (List.mem_reverse.mpr
                  (List.mem_map.mpr ⟨_, hmem, rfl⟩)))
              · exact compat_update s hs w hcw _ _ hr9 hc9 choices hchoices
            · exact ⟨w, List.mem_append.mpr (Or.inr hwr), hcw⟩
          have hlen : choices.length ≤ 9 := candidate_len_le_nine choices
            (hRb.ok _ _ choices hchoices).1 (hRb.ok _ _ choices hchoices).2
          have hmeas' : frontierMeasure ((choices.map fun v =>
              b.update b.find_most_constrained_cell.1
                b.find_most_constrained_cell.2 v).reverse ++ rest) ≤ fuel := by
            rw [frontierMeasure_append, frontierMeasure_reverse]
            exact branch_measure_le b rest choices hchoices hlen fuel hmeas
          exact ih _ hmeas' hchild hcompat'

theorem bfs_succeeds (s : Nat → Nat → Nat) (hs : validSolution s) (b0 : Board) :
    ∀ (fuel : Nat) (frontier : List Board),
    frontierMeasure frontier ≤ fuel →
    (∀ b ∈ frontier, Reach b0 b) →
    (∃ b ∈ frontier, compat s b) →
    ∃ res, BFSAux fuel frontier = .found res ∧ Reach b0 res ∧
      res.goal_test = true := by
  intro fuel
  induction fuel with
  | zero =>
    intro frontier hmeas hreach hcompat
    exfalso
    obtain ⟨b, hb, _⟩ := hcompat
    have := frontierMeasure_pos frontier b hb
    omega
  | succ fuel ih =>
    intro frontier hmeas hreach hcompat
    cases frontier with
    | nil =>
      obtain ⟨b, hb, _⟩ := hcompat
      cases hb
    | cons b rest =>
      have hRb := hreach b (List.mem_cons_self _ _)
      by_cases hg : b.goal_test
      · exact ⟨b, BFSAux_cons_goal fuel b rest hg, hRb, hg⟩
      · rw [Bool.not_eq_true] at hg
        by_cases hf : b.failure_test
        · rw [BFSAux_cons_prune fuel b rest hg hf]
          obtain ⟨w, hw, hcw⟩ := hcompat
          have hwrest : w ∈ rest := by
            rcases List.mem_cons.mp hw with rfl | h
            · have hnofail := compat_not_failure s w hRb.wf hcw
              rw [hnofail] at hf
              simp at hf
            · exact h
          have hmeas' : frontierMeasure rest ≤ fuel := by
            rw [frontierMeasure_cons] at hmeas
            have hp : 1 ≤ 10 ^ (candCount b.rows + 1) := Nat.one_le_pow _ _ (by omega)
            omega
          exact ih rest hmeas' (fun x hx => hreach x (List.mem_cons_of_mem _ hx))
            ⟨w, hwrest, hcw⟩
        · rw [Bool.not_eq_true] at hf
          obtain ⟨choices, hchoices⟩ := reach_branch_candidates b0 b hRb hg
          rw [BFSAux_cons_branch fuel b rest choices hg hf hchoices]
          have hrange := cellAt_candidates_in_range b.rows _ _ choices hchoices
          have hr9 : b.find_most_constrained_cell.1 < 9 := by
            have := hrange.1
            rw [hRb.wf.1] at this
            exact this
          have hc9 : b.find_most_constrained_cell.2 < 9 := by
            have := hrange.2
            rw [hRb.wf.2 _ hr9] at this
            exact this
          have hchild : ∀ x ∈ (rest ++ choices.map fun v =>
              b.update b.find_most_constrained_cell.1
                b.find_most_constrained_cell.2 v), Reach b0 x := by
            intro x hx
            rcases List.mem_append.mp hx with hx | hx
            · exact hreach x (List.mem_cons_of_mem _ hx)
            · obtain ⟨v, hv, rfl⟩ := List.mem_map.mp hx
              exact reach_update b0 b hRb _ _ hr9 hc9 choices hchoices v hv
          have hcompat' : ∃ x ∈ (rest ++ choices.map fun v =>
              b.update b.find_most_constrained_cell.1
                b.find_most_constrained_cell.2 v), compat s x := by
            obtain ⟨w, hw, hcw⟩ := hcompat
            rcases List.mem_cons.mp hw with rfl | hwr
            · have hmem := (hcw _ _ hr9 hc9).2 choices hchoices
              refine ⟨w.update w.find_most_constrained_cell.1
                  w.find_most_constrained_cell.2
                  (s w.find_most_constrained_cell.1 w.find_most_constrained_cell.2),
                ?_, ?_⟩
              · exact List.mem_append.mpr (Or.inr (List.mem_map.mpr ⟨_, hmem, rfl⟩))
              · exact compat_update s hs w hcw _ _ hr9 hc9 choices hchoices
            · exact ⟨w, List.mem_append.mpr (Or.inl hwr), hcw⟩
          have hlen : choices.length ≤ 9 := candidate_len_le_nine choices
            (hRb.ok _ _ choices hchoices).1 (hRb.ok _ _ choices hchoices).2
          have hmeas' : frontierMeasure (rest ++ choices.map fun v =>
              b.update b.find_most_constrained_cell.1
                b.find_most_constrained_cell.2 v) ≤ fuel := by
            rw [frontierMeasure_append]
            have := branch_measure_le b rest choices hchoices hlen fuel hmeas
            omega
          exact ih _ hmeas' hchild hcompat'

/-! ### Seeding a board from clues -/

theorem cellAt_init_in_range (i j : Nat) (hi : i < 9) (hj : j < 9) :
    cellAt Board.init.rows i j = Cell.candidates digits := by
  have hdec : ∀ i, i < 9 → ∀ j, j < 9 →
      cellAt Board.init.rows i j = Cell.candidates digits := by decide
  exact hdec i hi j hj

theorem counterOK_init : counterOK Board.init := by
  unfold counterOK
  decide

theorem consistent_init : consistent Board.init := by
  intro i j r c hi hj hr hc hshare hne d hd
  rw [cellAt_init_in_range r c hr hc] at hd
  cases hd

theorem assignedDigits_init : assignedDigits Board.init := by
  intro i j d hi hj hd
  rw [cellAt_init_in_range i j hi hj] at hd
  cases hd

theorem compat_init (s : Nat → Nat → Nat) (hs : validSolution s) :
    compat s Board.init := by
  intro i j hi hj
  constructor
  · intro d hd
    rw [cellAt_init_in_range i j hi hj] at hd
    cases hd
  · intro l hl
    rw [cellAt_init_in_range i j hi hj] at hl
    cases hl
    exact hs.1 i hi j hj

theorem seed_invariant (s : Nat → Nat → Nat) (hs : validSolution s) :
    ∀ (clues : List (Nat × Nat × Nat)) (b : Board),
    (∀ m ∈ clues, m.1 < 9 ∧ m.2.1 < 9 ∧ s m.1 m.2.1 = m.2.2) →
    (clues.map fun m => (m.1, m.2.1)).Nodup →
    grid9 b.rows → listsOK b.rows → counterOK b → consistent b →
    assignedDigits b → compat s b →
    (∀ i j d, cellAt b.rows i j = Cell.assigned d →
      (i, j) ∉ clues.map fun m => (m.1, m.2.1)) →
    grid9 (b.applyMoves clues).rows ∧ listsOK (b.applyMoves clues).rows ∧
      counterOK (b.applyMoves clues) ∧ consistent (b.applyMoves clues) ∧
      assignedDigits (b.applyMoves clues) ∧ compat s (b.applyMoves clues) := by
  intro clues
  induction clues with
  | nil =>
    intro b _ _ hg hok hco hcons hdig hcompat _
    exact ⟨hg, hok, hco, hcons, hdig, hcompat⟩
  | cons m t ih =>
    intro b hall hnodup hg hok hco hcons hdig hcompat hun
    rw [Board.applyMoves, List.foldl_cons, ← Board.applyMoves]
    obtain ⟨hr, hc, hsv⟩ := hall m (List.mem_cons_self _ _)
    rcases hcell : cellAt b.rows m.1 m.2.1 with d | l
    · exact absurd (List.mem_map.mpr ⟨m, List.mem_cons_self _ _, rfl⟩)
        (hun m.1 m.2.1 d hcell)
    · have hv : m.2.2 ∈ l := by
        have hmem := (hcompat m.1 m.2.1 hr hc).2 l hcell
        rw [hsv] at hmem
        exact hmem
      refine ih (b.update m.1 m.2.1 m.2.2)
        (fun x hx => hall x (List.mem_cons_of_mem _ hx))
        (List.nodup_cons.mp hnodup).2
        (grid9_update _ _ _ _ hg)
        (listsOK_update _ _ _ _ hok)
        (counterOK_update _ _ _ _ l hcell hco)
        (consistent_update b hg hok hcons m.1 m.2.1 hr hc l hcell m.2.2 hv)
        (assignedDigits_update b _ _ _ hok l hcell hv hdig)
        ?_ ?_
      · have hcu := compat_update s hs b hcompat m.1 m.2.1 hr hc l hcell
        rw [hsv] at hcu
        exact hcu
      · intro i j d hd hmem
        by_cases hij : i = m.1 ∧ j = m.2.1
        · obtain ⟨rfl, rfl⟩ := hij
          exact (List.nodup_cons.mp hnodup).1 hmem
        · exact hun i j d ((update_back b m.1 m.2.1 m.2.2 i j hij).1 d hd)
            (List.mem_cons_of_mem _ hmem)

theorem applyMoves_keeps_assigned (moves : List (Nat × Nat × Nat)) :
    ∀ (b : Board) (i j d : Nat),
    cellAt b.rows i j = Cell.assigned d →
    (i, j) ∉ (moves.map fun m => (m.1, m.2.1)) →
    cellAt (b.applyMoves moves).rows i j = Cell.assigned d := by
  induction moves with
  | nil => exact fun b i j d h _ => h
  | cons m t ih =>
    intro b i j d h hnot
    rw [Board.applyMoves, List.foldl_cons, ← Board.applyMoves]
    have hne : ¬(i = m.1 ∧ j = m.2.1) := by
      intro hcon
      exact hnot (List.mem_map.mpr ⟨m, List.mem_cons_self _ _, by
        rw [hcon.1, hcon.2]⟩)
    exact ih (b.update m.1 m.2.1 m.2.2) i j d
      (update_keeps_assigned_peer b m.1 m.2.1 m.2.2 i j hne d h)
      (fun hmem => hnot (List.mem_cons_of_mem _ hmem))

theorem applyMoves_clue_assigned :
    ∀ (clues : List (Nat × Nat × Nat)) (b : Board),
    grid9 b.rows →
    (∀ m ∈ clues, m.1 < 9 ∧ m.2.1 < 9) →
    (clues.map fun m => (m.1, m.2.1)).Nodup →
    ∀ m ∈ clues, cellAt (b.applyMoves clues).rows m.1 m.2.1 = Cell.assigned m.2.2 := by
  intro clues
  induction clues with
  | nil =>
    intro b _ _ _ m hm
    cases hm
  | cons m0 t ih =>
    intro b hg hall hnodup m hm
    rw [Board.applyMoves, List.foldl_cons, ← Board.applyMoves]
    rcases List.mem_cons.mp hm with rfl | hmt
    · obtain ⟨hr, hc⟩ := hall m (List.mem_cons_self _ _)
      have hset := update_sets_cell b m.1 m.2.1 m.2.2
        (by rw [hg.1]; exact hr) (by rw [hg.2 _ hr]; exact hc)
      exact applyMoves_keeps_assigned t _ _ _ _ hset (List.nodup_cons.mp hnodup).1
    · exact ih (b.update m0.1 m0.2.1 m0.2.2) (grid9_update _ _ _ _ hg)
        (fun x hx => hall x (List.mem_cons_of_mem _ hx))
        (List.nodup_cons.mp hnodup).2 m hmt

/-! ### A solved reachable board is a valid solution -/

theorem goal_true_num (b : Board) (h : b.goal_test = true) :
    b.num_nums_placed = 81 := by
  unfold Board.goal_test at h
  simpa [boardSize] using h

theorem boardValue_of_assigned (b : Board) (i j d : Nat)
    (h : cellAt b.rows i j = Cell.assigned d) : boardValue b i j = d := by
  unfold boardValue
  rw [h]

theorem reach_goal_all_assigned (b0 res : Board) (hR : Reach b0 res)
    (hg : res.goal_test = true) :
    ∀ i j, i < 9 → j < 9 → cellAt res.rows i j = Cell.assigned (boardValue res i j) := by
  have hnum := goal_true_num res hg
  have h81 := assigned_add_cand res.rows
  rw [total_cells_81 res.rows hR.wf] at h81
  have hassigned : assignedCount res.rows = 81 := by
    have hco := hR.counter
    unfold counterOK at hco
    omega
  have hcand : candCount res.rows = 0 := by omega
  intro i j hi hj
  rcases hcellc : cellAt res.rows i j with d | l
  · unfold boardValue
    rw [hcellc]
  · exfalso
    have := candCount_pos_of_candidates res.rows i j l hcellc
    omega

theorem reach_goal_valid (b0 res : Board) (hR : Reach b0 res)
    (hg : res.goal_test = true) : validSolution (boardValue res) := by
  have hall := reach_goal_all_assigned b0 res hR hg
  constructor
  · intro r hr c hc
    exact hR.digs r c (boardValue res r c) hr hc (hall r c hr hc)
  · intro r hr c hc i hi j hj hshare hne
    exact (hR.cons i j r c hi hj hr hc hshare hne (boardValue res r c)
      (hall r c hr hc)).1 _ (hall i j hi hj)

theorem grid_ext (rows1 rows2 : List (List Cell)) (h1 : grid9 rows1)
    (h2 : grid9 rows2)
    (h : ∀ i j, i < 9 → j < 9 → cellAt rows1 i j = cellAt rows2 i j) :
    rows1 = rows2 := by
  apply List.ext_getElem
  · rw [h1.1, h2.1]
  · intro i hi1 hi2
    have hi9 : i < 9 := by
      rw [h1.1] at hi1
      exact hi1
    have g1 : rows1[i].length = 9 := by
      have hlen := h1.2 i hi9
      rw [getD_eq_get rows1 i [] hi1] at hlen
      exact hlen
    have g2 : rows2[i].length = 9 := by
      have hlen := h2.2 i hi9
      rw [getD_eq_get rows2 i [] hi2] at hlen
      exact hlen
    apply List.ext_getElem
    · rw [g1, g2]
    · intro j hj1 hj2
      have hj9 : j < 9 := by omega
      have hcell := h i j hi9 hj9
      unfold cellAt at hcell
      rw [getD_eq_get rows1 i [] hi1, getD_eq_get rows2 i [] hi2] at hcell
      rw [getD_eq_get (rows1.get ⟨i, hi1⟩) j (Cell.assigned 0) (by exact hj1),
        getD_eq_get (rows2.get ⟨i, hi2⟩) j (Cell.assigned 0) (by exact hj2)] at hcell
      exact hcell

theorem board_eq_of_parts (res res' : Board) (h1 : res.rows = res'.rows)
    (h2 : res.num_nums_placed = res'.num_nums_placed) : res = res' := by
  cases res
  cases res'
  simp only [Board.mk.injEq]
  exact ⟨h1, h2⟩

/-! ### Claim C8 -/

/-- C8: for every seed board built by applying a solvable puzzle's clues
(distinct in-range coordinates, consistent with a valid full solution `s`)
to a fresh board, DFS and BFS each return a board passing `goal_test`
(with sufficient fuel for the embedding), and if the puzzle has exactly one
solution the two returned boards are identical. -/
theorem C8_dfs_bfs_solve_and_agree (clues : List (Nat × Nat × Nat))
    (s : Nat → Nat → Nat) (hs : validSolution s)
    (hall : ∀ m ∈ clues, m.1 < 9 ∧ m.2.1 < 9 ∧ s m.1 m.2.1 = m.2.2)
    (hnodup : (clues.map fun m => (m.1, m.2.1)).Nodup) :
    ∃ fuel resD resB,
      DFS fuel (Board.init.applyMoves clues) = SearchOut.found resD ∧
      BFS fuel (Board.init.applyMoves clues) = SearchOut.found resB ∧
      resD.goal_test = true ∧ resB.goal_test = true ∧
      ((∀ t, validSolution t → (∀ m ∈ clues, t m.1 m.2.1 = m.2.2) →
          ∀ i j, i < 9 → j < 9 → t i j = s i j) →
        resD = resB) := by
  have hinit : ∀ i j d, cellAt Board.init.rows i j = Cell.assigned d →
      (i, j) ∉ clues.map fun m => (m.1, m.2.1) := by
    intro i j d hd hmem
    obtain ⟨m, hm, heq⟩ := List.mem_map.mp hmem
    obtain ⟨hr, hc, _⟩ := hall m hm
    rw [Prod.mk.injEq] at heq
    obtain ⟨he1, he2⟩ := heq
    have hi : i < 9 := by
      rw [← he1]
      exact hr
    have hj : j < 9 := by
      rw [← he2]
      exact hc
    rw [cellAt_init_in_range i j hi hj] at hd
    cases hd
  obtain ⟨hg, hok, hco, hcons, hdig, hcompat⟩ :=
    seed_invariant s hs clues Board.init hall hnodup grid9_init listsOK_init
      counterOK_init consistent_init assignedDigits_init (compat_init s hs) hinit
  have hReach : Reach (Board.init.applyMoves clues) (Board.init.applyMoves clues) :=
    { wf := hg, ok := hok, counter := hco, cons := hcons, digs := hdig
      ext := fun i j d h => h }
  obtain ⟨resD, hD, hRD, hgD⟩ := dfs_succeeds s hs (Board.init.applyMoves clues)
    (frontierMeasure [Board.init.applyMoves clues]) [Board.init.applyMoves clues]
    (le_refl _)
    (fun b hb => by rcases List.mem_singleton.mp hb with rfl; exact hReach)
    ⟨_, List.mem_singleton_self _, hcompat⟩
  obtain ⟨resB, hB, hRB, hgB⟩ := bfs_succeeds s hs (Board.init.applyMoves clues)
    (frontierMeasure [Board.init.applyMoves clues]) [Board.init.applyMoves clues]
    (le_refl _)
    (fun b hb => by rcases List.mem_singleton.mp hb with rfl; exact hReach)
    ⟨_, List.mem_singleton_self _, hcompat⟩
  refine ⟨frontierMeasure [Board.init.applyMoves clues], resD, resB, hD, hB, hgD, hgB,
    fun huniq => ?_⟩
  have hclue9 : ∀ m ∈ clues, m.1 < 9 ∧ m.2.1 < 9 :=
    fun m hm => ⟨(hall m hm).1, (hall m hm).2.1⟩
  have hseedclues := applyMoves_clue_assigned clues Board.init grid9_init hclue9 hnodup
  have hvalsD : ∀ i j, i < 9 → j < 9 → boardValue resD i j = s i j := by
    refine huniq (boardValue resD) (reach_goal_valid _ resD hRD hgD) ?_
    intro m hm
    exact boardValue_of_assigned resD m.1 m.2.1 m.2.2
      (hRD.ext m.1 m.2.1 m.2.2 (hseedclues m hm))
  have hvalsB : ∀ i j, i < 9 → j < 9 → boardValue resB i j = s i j := by
    refine huniq (boardValue resB) (reach_goal_valid _ resB hRB hgB) ?_
    intro m hm
    exact boardValue_of_assigned resB m.1 m.2.1 m.2.2
      (hRB.ext m.1 m.2.1 m.2.2 (hseedclues m hm))
  refine board_eq_of_parts resD resB ?_ ?_
  · refine grid_ext resD.rows resB.rows hRD.wf hRB.wf ?_
    intro i j hi hj
    rw [reach_goal_all_assigned _ resD hRD hgD i j hi hj,
      reach_goal_all_assigned _ resB hRB hgB i j hi hj, hvalsD i j hi hj,
      hvalsB i j hi hj]
  · rw [goal_true_num resD hgD, goal_true_num resB hgB]

set_option synthInstance.maxHeartbeats 2000000 in
set_option synthInstance.maxSize 2048 in
set_option maxHeartbeats 4000000 in
/-- Witness for C8 on the empty puzzle (no clues), whose solvability is
witnessed by the concrete shifted pattern solution. -/
theorem C8_witness :
    ∃ fuel resD resB,
      DFS fuel (Board.init.applyMoves []) = SearchOut.found resD ∧
      BFS fuel (Board.init.applyMoves []) = SearchOut.found resB ∧
      resD.goal_test = true ∧ resB.goal_test = true ∧
      ((∀ t, validSolution t → (∀ m ∈ ([] : List (Nat × Nat × Nat)), t m.1 m.2.1 = m.2.2) →
          ∀ i j, i < 9 → j < 9 → t i j = solvedPattern i j) →
        resD = resB) :=
  C8_dfs_bfs_solve_and_agree [] solvedPattern
    (by unfold validSolution sharesUnit; decide) (by decide) (by decide)
